import Mathlib

/-!
SimpleVector.

A shallow embedding of `simple_vector.h` (the class template `SimpleVector<Type>`).

* `size_t` is modelled by `Nat`.  A capacity is always a number of slots that was
  successfully allocated at some point (or was requested together with such an
  allocation), so the products `capacity_ * 2` of the source stay far below `2 ^ 64`;
  the two places where a `size_t` can wrap from zero (`--size_` and a negative pointer
  difference) are modelled explicitly.
* The heap block behind `items_` is a list of slots; `items_` itself is an
  `Option (List α)`, with `none` for `nullptr`.  Allocation is assumed to succeed.
* Every access outside the allocated block is undefined behaviour in C++; the
  embedding checks each access and returns `Fault.undefined` instead.
* A position (`Iterator`, `ConstIterator`) is an integer offset from `begin()`.
* The element type is a parameter: `Elem` records the value of `Type()`, the content of a
  slot that `new Type[n]` has only default-initialised, and what moving from an object and
  destroying it leave in its slot.
* The `const Type&` argument of `Insert` is a `Ref`: an object outside the block of the
  vector, or an element of the vector itself, which is read at the point where the source
  reads it.  The other reference arguments (of `PushBack`, of `Insert(Type&&)` and of the
  fill constructor) are passed by value, that is, they are taken to refer to an object
  outside the block.
* `delete[]` is not modelled: a block that is no longer referenced is simply dropped.
* `operator==` and `operator<` of `Type` are the `BEq` and `LT` instances of the element
  type.  An operation on two objects (`operator=`, `swap`) takes both states and returns
  the new ones; the test `this != &other` is a Boolean argument.
-/

namespace SimpleVectorSpec

/-- The ways in which an operation can end without returning normally. -/
inductive Fault where
  /-- The exception `std::out_of_range` thrown by `At`. -/
  | out_of_range
  /-- An `assert` whose condition is false. -/
  | assertion
  /-- Undefined behaviour: an access outside the allocated block or through `nullptr`. -/
  | undefined
  deriving DecidableEq, Repr

/-- What the container needs to know about its element type `Type`. -/
class Elem (α : Type) where
  /-- The value of the expression `Type()`. -/
  dflt : α
  /-- The content of a slot created by `new Type[n]` (default-initialisation): `Type()`
  for a class type, an arbitrary value for a scalar type. -/
  indet : α
  /-- The state in which `std::move` leaves the object it moved from. -/
  moved : α → α
  /-- The content of a slot after the destructor of its object has run. -/
  dead : α → α

/-- Elements of type `int`: `int()` is zero, fresh slots hold garbage, moving and
destroying an `int` leave it as it is. -/
instance : Elem Int where
  dflt := 0
  indet := -271828
  moved := id
  dead := id

/-- A pointer to the first slot of a heap block; `none` is `nullptr`. -/
abbrev Ptr (α : Type) := Option (List α)

/-- The slots a pointer addresses; `nullptr` addresses none. -/
def slots {α : Type} (p : Ptr α) : List α := p.getD []

/-- The expression `new Type[n]`. -/
def new_array {α : Type} [Elem α] (n : Nat) : Ptr α := some (List.replicate n Elem.indet)

/-- The expression `new Type[n]()`: every slot is value-initialised. -/
def new_array_value {α : Type} [Elem α] (n : Nat) : Ptr α := some (List.replicate n Elem.dflt)

/-- The block `blk` with the slots from `d_first` on replaced by `xs`. -/
def overwrite {α : Type} (blk : List α) (d_first : Nat) (xs : List α) : List α :=
  blk.take d_first ++ xs ++ blk.drop (d_first + xs.length)

/-- The block `blk` with `f` applied to the slots in `[first, last)`. -/
def map_range {α : Type} (f : α → α) (blk : List α) (first last : Nat) : List α :=
  blk.take first ++ ((blk.drop first).take (last - first)).map f ++ blk.drop last

/-- The slots `[first, last)` of a block. -/
def slice {α : Type} (blk : List α) (first last : Nat) : List α :=
  (blk.drop first).take (last - first)

/-- The read `p[i]`. -/
def load {α : Type} (p : Ptr α) (i : Nat) : Except Fault α :=
  match (slots p)[i]? with
  | some x => .ok x
  | none => .error .undefined

/-- The assignment `p[i] = x`. -/
def store {α : Type} (p : Ptr α) (i : Nat) (x : α) : Except Fault (Ptr α) :=
  match p with
  | none => .error .undefined
  | some blk => if i < blk.length then .ok (some (blk.set i x)) else .error .undefined

/-- The call `std::copy(src + first, src + last, dst + d_first)` between two different
blocks; the result is the destination block. -/
def std_copy {α : Type} (src : Ptr α) (first last : Nat) (dst : Ptr α) (d_first : Nat) :
    Except Fault (Ptr α) :=
  if first ≤ last ∧ last ≤ (slots src).length ∧ d_first + (last - first) ≤ (slots dst).length then
    .ok (dst.map fun blk => overwrite blk d_first (slice (slots src) first last))
  else .error .undefined

/-- The call `std::move(src + first, src + last, dst + d_first)` between two different
blocks; the result is the source block, whose moved elements are in their moved-from
state, and the destination block. -/
def std_move {α : Type} [Elem α] (src : Ptr α) (first last : Nat) (dst : Ptr α) (d_first : Nat) :
    Except Fault (Ptr α × Ptr α) :=
  if first ≤ last ∧ last ≤ (slots src).length ∧ d_first + (last - first) ≤ (slots dst).length then
    .ok (src.map fun blk => map_range Elem.moved blk first last,
         dst.map fun blk => overwrite blk d_first (slice (slots src) first last))
  else .error .undefined

/-- The call `std::move(p + first, p + last, p + d_first)` inside one block, with the
destination before the source range (the elements are shifted to the left). -/
def std_move_left {α : Type} [Elem α] (p : Ptr α) (first last d_first : Nat) :
    Except Fault (Ptr α) :=
  if first ≤ last ∧ last ≤ (slots p).length ∧ d_first < first then
    .ok (p.map fun blk =>
      overwrite (map_range Elem.moved blk first last) d_first (slice blk first last))
  else .error .undefined

/-- The call `std::copy_backward(p + first, p + last, p + d_last)` inside one block, with
the end of the destination after the source range (the elements are shifted to the
right). -/
def std_copy_backward {α : Type} (p : Ptr α) (first last d_last : Nat) : Except Fault (Ptr α) :=
  if first ≤ last ∧ last < d_last ∧ d_last ≤ (slots p).length then
    .ok (p.map fun blk => overwrite blk (d_last - (last - first)) (slice blk first last))
  else .error .undefined

/-- The call `std::destroy(p + first, p + last)`. -/
def std_destroy {α : Type} [Elem α] (p : Ptr α) (first last : Nat) : Except Fault (Ptr α) :=
  if first ≤ last ∧ last ≤ (slots p).length then
    .ok (p.map fun blk => map_range Elem.dead blk first last)
  else .error .undefined

/-- The call `std::move_backward(p + first, p + last, p + d_last)` inside one block, with
the end of the destination after the source range (the elements are shifted to the
right). -/
def std_move_backward {α : Type} [Elem α] (p : Ptr α) (first last d_last : Nat) :
    Except Fault (Ptr α) :=
  if first ≤ last ∧ last < d_last ∧ d_last ≤ (slots p).length then
    .ok (p.map fun blk =>
      overwrite (map_range Elem.moved blk first last) (d_last - (last - first))
        (slice blk first last))
  else .error .undefined

/-- The call `std::fill(p + first, p + last, value)`. -/
def std_fill {α : Type} (p : Ptr α) (first last : Nat) (value : α) : Except Fault (Ptr α) :=
  if first ≤ last ∧ last ≤ (slots p).length then
    .ok (p.map fun blk => overwrite blk first (List.replicate (last - first) value))
  else .error .undefined

/-- The call `std::equal(p1 + first1, p1 + first1 + n, p2 + first2)`, with the elements
compared by `operator==` of `Type`. -/
def std_equal {α : Type} [BEq α] (p1 : Ptr α) (first1 : Nat) (p2 : Ptr α) (first2 : Nat) :
    Nat → Except Fault Bool
  | 0 => .ok true
  | n + 1 =>
    match load p1 first1 with
    | .error e => .error e
    | .ok x =>
      match load p2 first2 with
      | .error e => .error e
      | .ok y =>
        if x == y then std_equal p1 (first1 + 1) p2 (first2 + 1) n else .ok false

/-- The call `std::lexicographical_compare(p1 + first1, p1 + first1 + n1, p2 + first2,
p2 + first2 + n2)`, with the elements compared by `operator<` of `Type`. -/
def std_lexicographical_compare {α : Type} [LT α] [∀ a b : α, Decidable (a < b)]
    (p1 : Ptr α) (first1 : Nat) (p2 : Ptr α) (first2 : Nat) : Nat → Nat → Except Fault Bool
  | 0, 0 => .ok false
  | 0, _ + 1 => .ok true
  | _ + 1, 0 => .ok false
  | n1 + 1, n2 + 1 =>
    match load p1 first1 with
    | .error e => .error e
    | .ok x =>
      match load p2 first2 with
      | .error e => .error e
      | .ok y =>
        if x < y then .ok true
        else if y < x then .ok false
        else std_lexicographical_compare p1 (first1 + 1) p2 (first2 + 1) n1 n2

/-- The comparison of `std::lexicographical_compare` on two lists of values. -/
def lex_less {α : Type} [LT α] [∀ a b : α, Decidable (a < b)] : List α → List α → Bool
  | [], [] => false
  | [], _ :: _ => true
  | _ :: _, [] => false
  | x :: xs, y :: ys => if x < y then true else if y < x then false else lex_less xs ys

/-- An argument of type `const Type&`: a reference to an object outside the block of the
vector, or to the element in a slot of that block. -/
inductive Ref (α : Type) where
  /-- A reference to an object with the given value that is not an element of the vector. -/
  | outside (x : α)
  /-- A reference to the element `items_[j]` of the vector itself, as in `v[j]`. -/
  | slot (j : Nat)
  deriving DecidableEq, Repr

/-- The value read through a reference while `items_` is `p`. -/
def Ref.read {α : Type} (r : Ref α) (p : Ptr α) : Except Fault α :=
  match r with
  | .outside x => .ok x
  | .slot j => load p j

/-- The conversion to `size_t` of the pointer difference `pos - begin()`. -/
def index_of (pos : Int) : Nat :=
  if pos < 0 then (pos + 2 ^ 64).toNat else pos.toNat

/-- The statement `--n` on a `size_t`. -/
def decr (n : Nat) : Nat := if n = 0 then 2 ^ 64 - 1 else n - 1

/-- The data members of `SimpleVector<Type>`; the default values are the default member
initialisers, so `{}` is the default-constructed vector. -/
structure SimpleVector (α : Type) where
  items_ : Ptr α := none
  size_ : Nat := 0
  capacity_ : Nat := 0
  deriving DecidableEq, Repr

namespace SimpleVector

variable {α : Type}

/-- The member function `GetSize`. -/
def GetSize (v : SimpleVector α) : Nat := v.size_

/-- The member function `GetCapacity`. -/
def GetCapacity (v : SimpleVector α) : Nat := v.capacity_

/-- The member function `IsEmpty`. -/
def IsEmpty (v : SimpleVector α) : Bool := if v.size_ = 0 then true else false

/-- The number of slots of the block behind `items_`. -/
def allocated (v : SimpleVector α) : Nat := (slots v.items_).length

/-- The live elements: the content of the slots `[0, size_)`. -/
def live (v : SimpleVector α) : List α := (slots v.items_).take v.size_

/-- Every live index addresses an allocated slot. -/
def Live (v : SimpleVector α) : Prop := v.size_ ≤ v.allocated

/-- The representation invariant: `size <= capacity <= allocated slots`. -/
def WellFormed (v : SimpleVector α) : Prop :=
  v.size_ ≤ v.capacity_ ∧ v.capacity_ ≤ v.allocated

instance (v : SimpleVector α) : Decidable v.Live := by unfold Live; infer_instance

instance (v : SimpleVector α) : Decidable v.WellFormed := by unfold WellFormed; infer_instance

/-- The member function `At` (both the const and the non-const overload). -/
def At (v : SimpleVector α) (index : Nat) : Except Fault α :=
  if index ≥ v.size_ then .error .out_of_range
  else load v.items_ index

/-- The member function `Clear`. -/
def Clear (v : SimpleVector α) : SimpleVector α := { v with size_ := 0 }

/-- The member function `PushBack(const Type&)`. -/
def PushBack [Elem α] (v : SimpleVector α) (elem : α) : Except Fault (SimpleVector α) :=
  if v.size_ < v.capacity_ then do
    let items ← store v.items_ v.size_ elem
    pure { v with items_ := items, size_ := v.size_ + 1 }
  else do
    let new_capacity := if v.capacity_ = 0 then 1 else v.capacity_ * 2
    let copy_items ← std_copy v.items_ 0 v.size_ (new_array new_capacity) 0
    let copy_items ← store copy_items v.size_ elem
    pure { items_ := copy_items, capacity_ := v.capacity_ * 2, size_ := v.size_ + 1 }

/-- The member function `PushBack(Type&&)`. -/
def PushBackMove [Elem α] (v : SimpleVector α) (elem : α) : Except Fault (SimpleVector α) :=
  if v.size_ < v.capacity_ then do
    let items ← store v.items_ v.size_ elem
    pure { v with items_ := items, size_ := v.size_ + 1 }
  else do
    let new_capacity := if v.capacity_ = 0 then 1 else v.capacity_ * 2
    let moved ← std_move v.items_ 0 v.size_ (new_array new_capacity) 0
    let copy_items ← store moved.2 v.size_ elem
    pure { items_ := copy_items, capacity_ := new_capacity, size_ := v.size_ + 1 }

/-- The loop `for (size_t i = first; i < first + n; ++i) dst[i] = src[i];` of `Reserve`. -/
def copy_loop (src dst : Ptr α) (first : Nat) : Nat → Except Fault (Ptr α)
  | 0 => .ok dst
  | n + 1 =>
    match load src first with
    | .error e => .error e
    | .ok x =>
      match store dst first x with
      | .error e => .error e
      | .ok dst1 => copy_loop src dst1 (first + 1) n

/-- The loop `for (size_t i = first; i < first + n; ++i) items[i] = Type();` of `Resize`. -/
def fill_loop [Elem α] (items : Ptr α) (first : Nat) : Nat → Except Fault (Ptr α)
  | 0 => .ok items
  | n + 1 =>
    match store items first Elem.dflt with
    | .error e => .error e
    | .ok items1 => fill_loop items1 (first + 1) n

/-- The member function `Reserve`. -/
def Reserve [Elem α] (v : SimpleVector α) (new_capacity : Nat) : Except Fault (SimpleVector α) :=
  if new_capacity > v.capacity_ then do
    let copy_items ← copy_loop v.items_ (new_array new_capacity) 0 v.size_
    pure { v with items_ := copy_items, capacity_ := new_capacity }
  else pure v

/-- The constructor `SimpleVector(ReserveProxyObj)`, called with `Reserve(capacity)`. -/
def ofReserve [Elem α] (capacity : Nat) : Except Fault (SimpleVector α) :=
  Reserve {} capacity

/-- The constructor `SimpleVector(std::initializer_list<Type>)`. -/
def ofList [Elem α] (init : List α) : Except Fault (SimpleVector α) := do
  let items ← std_copy (some init) 0 init.length (new_array init.length) 0
  pure { items_ := items, size_ := init.length, capacity_ := init.length }

/-- The member function `Resize`. -/
def Resize [Elem α] (v : SimpleVector α) (new_size : Nat) : Except Fault (SimpleVector α) :=
  if new_size ≤ v.capacity_ then
    if new_size < v.size_ then do
      let items ← std_destroy v.items_ new_size v.size_
      pure { v with items_ := items, size_ := new_size }
    else if new_size > v.size_ then do
      let items ← fill_loop v.items_ v.size_ (new_size - v.size_)
      pure { v with items_ := items, size_ := new_size }
    else pure { v with size_ := new_size }
  else do
    let new_capacity := max (v.capacity_ * 2) new_size
    let moved ← std_move v.items_ 0 v.size_ (new_array_value new_capacity) 0
    pure { items_ := moved.2, size_ := new_size, capacity_ := new_capacity }

/-- The member function `PopBack`. -/
def PopBack [Elem α] (v : SimpleVector α) : Except Fault (SimpleVector α) :=
  if ¬ v.size_ > 0 then .error .assertion
  else do
    let size := decr v.size_
    let items ← std_destroy v.items_ size (size + 1)
    pure { v with items_ := items, size_ := size }

/-- The member function `begin`, as an offset from `begin()`. -/
def begin_ (_v : SimpleVector α) : Int := 0

/-- The member function `end`, as an offset from `begin()`: both are `nullptr` when
`size_` is 0, and `end()` is `&items_[size_]` otherwise. -/
def end_ (v : SimpleVector α) : Int := v.size_

/-- The condition of the `assert` at the start of `Insert` and `Erase`,
`begin() <= pos || pos <= end()`, for a position at offset `pos` from `begin()`. -/
def pos_check (v : SimpleVector α) (pos : Int) : Bool :=
  decide (v.begin_ ≤ pos) || decide (pos ≤ v.end_)

/-- The member function `Insert(ConstIterator, const Type&)`; the second component of the
result is the offset of the returned iterator from the new `begin()`.  The argument
`value` is a reference: the reallocating branch reads it in `new_items[pos_index] = value`
while the old block is still untouched, the in-place branch reads it in
`items_[pos_index] = value`, after `std::copy_backward` has shifted the elements. -/
def Insert [Elem α] (v : SimpleVector α) (pos : Int) (value : Ref α) :
    Except Fault (SimpleVector α × Int) :=
  if ¬ v.pos_check pos then .error .assertion
  else
    let pos_index := index_of pos
    if v.size_ = v.capacity_ then do
      let new_capacity := if v.capacity_ = 0 then 1 else v.capacity_ * 2
      let new_items ← std_copy v.items_ 0 pos_index (new_array new_capacity) 0
      let x ← value.read v.items_
      let new_items ← store new_items pos_index x
      let new_items ← std_copy v.items_ pos_index v.size_ new_items (pos_index + 1)
      pure ({ items_ := new_items, size_ := v.size_ + 1, capacity_ := new_capacity }, pos_index)
    else do
      let items ← std_copy_backward v.items_ pos_index v.size_ (v.size_ + 1)
      let x ← value.read items
      let items ← store items pos_index x
      pure ({ v with items_ := items, size_ := v.size_ + 1 }, pos_index)

/-- The member function `Erase`; the second component of the result is the offset of the
returned iterator from the new `begin()`. -/
def Erase [Elem α] (v : SimpleVector α) (pos : Int) : Except Fault (SimpleVector α × Int) :=
  if ¬ v.pos_check pos then .error .assertion
  else do
    let pos_erase := index_of pos
    let items ← std_move_left v.items_ (pos_erase + 1) v.size_ pos_erase
    pure ({ v with items_ := items, size_ := decr v.size_ }, pos_erase)

/-- A sequence of `PushBack` calls; `true` selects the overload `PushBack(Type&&)`. -/
def push_all [Elem α] (v : SimpleVector α) : List (Bool × α) → Except Fault (SimpleVector α)
  | [] => .ok v
  | (mv, x) :: rest =>
    match (if mv then v.PushBackMove x else v.PushBack x) with
    | .error e => .error e
    | .ok v1 => push_all v1 rest

/-- The pointer returned by `begin()`, `cbegin()` (and by `end()`, `cend()`, which add
`size_` to it): `nullptr` for an empty vector, `&items_[0]` otherwise. -/
def begin_ptr (v : SimpleVector α) : Ptr α := if v.size_ = 0 then none else v.items_

/-- The copy constructor `SimpleVector(const SimpleVector&)`. -/
def copy [Elem α] (other : SimpleVector α) : Except Fault (SimpleVector α) := do
  let items ← std_copy other.begin_ptr 0 other.size_ (new_array other.size_) 0
  pure { items_ := items, size_ := other.size_, capacity_ := other.capacity_ }

/-- The move constructor `SimpleVector(SimpleVector&&)`: the new vector and the state in
which `other` is left. -/
def move (other : SimpleVector α) : SimpleVector α × SimpleVector α :=
  ({ items_ := other.items_, size_ := other.size_, capacity_ := other.capacity_ },
   { items_ := none, size_ := 0, capacity_ := 0 })

/-- The constructor `SimpleVector(size_t)`. -/
def ofSize [Elem α] (size : Nat) : Except Fault (SimpleVector α) := do
  let items := if size = 0 then none else new_array size
  let items ← std_fill items 0 size Elem.dflt
  pure { items_ := items, size_ := size, capacity_ := size }

/-- The constructor `SimpleVector(size_t, const Type&)`. -/
def ofSizeValue [Elem α] (size : Nat) (value : α) : Except Fault (SimpleVector α) := do
  let items ← std_fill (new_array size) 0 size value
  pure { items_ := items, size_ := size, capacity_ := size }

/-- The member function `swap`: the new states of `*this` and of `other`. -/
def swap (self other : SimpleVector α) : SimpleVector α × SimpleVector α :=
  ({ items_ := other.items_, size_ := other.size_, capacity_ := other.capacity_ },
   { items_ := self.items_, size_ := self.size_, capacity_ := self.capacity_ })

/-- The copy assignment `operator=(const SimpleVector&)`; `this_ne_other` is the value of
the test `this != &other`.  The result is the new state of `*this`. -/
def assign [Elem α] (self other : SimpleVector α) (this_ne_other : Bool) :
    Except Fault (SimpleVector α) :=
  if this_ne_other then
    if other.IsEmpty then pure { self with size_ := 0, items_ := none }
    else do
      let temp ← copy other
      pure (self.swap temp).1
  else pure self

/-- The move assignment `operator=(SimpleVector&&)`; `this_ne_other` is the value of the
test `this != &other`.  The result is the new states of `*this` and of `other`. -/
def assign_move (self other : SimpleVector α) (this_ne_other : Bool) :
    SimpleVector α × SimpleVector α :=
  if this_ne_other then
    ({ items_ := other.items_, size_ := other.size_, capacity_ := other.capacity_ },
     { items_ := none, size_ := 0, capacity_ := 0 })
  else (self, other)

/-- The member function `Insert(ConstIterator, Type&&)`; the second component of the
result is the offset of the returned iterator from the new `begin()`. -/
def InsertMove [Elem α] (v : SimpleVector α) (pos : Int) (value : α) :
    Except Fault (SimpleVector α × Int) :=
  if ¬ v.pos_check pos then .error .assertion
  else
    let pos_index := index_of pos
    if v.size_ = v.capacity_ then do
      let new_capacity := if v.capacity_ = 0 then 1 else v.capacity_ * 2
      let moved ← std_move v.items_ 0 v.size_ (new_array new_capacity) 0
      let new_items ← store moved.2 pos_index value
      let moved ← std_move moved.1 pos_index v.size_ new_items (pos_index + 1)
      pure ({ items_ := moved.2, size_ := v.size_ + 1, capacity_ := new_capacity }, pos_index)
    else do
      let items ← std_move_backward v.items_ pos_index v.size_ (v.size_ + 1)
      let items ← store items pos_index value
      pure ({ v with items_ := items, size_ := v.size_ + 1 }, pos_index)

/-- The free function `operator==`. -/
def operator_eq [BEq α] (lhs rhs : SimpleVector α) : Except Fault Bool :=
  if lhs.GetSize ≠ rhs.GetSize then .ok false
  else std_equal lhs.begin_ptr 0 rhs.begin_ptr 0 lhs.size_

/-- The free function `operator!=`. -/
def operator_ne [BEq α] (lhs rhs : SimpleVector α) : Except Fault Bool := do
  let r ← operator_eq lhs rhs
  pure (!r)

/-- The free function `operator<`. -/
def operator_lt [LT α] [∀ a b : α, Decidable (a < b)] (lhs rhs : SimpleVector α) :
    Except Fault Bool :=
  std_lexicographical_compare lhs.begin_ptr 0 rhs.begin_ptr 0 lhs.size_ rhs.size_

end SimpleVector

/-! ## Auxiliary lemmas -/

variable {α : Type}

theorem length_overwrite (blk xs : List α) (d : Nat) (h : d + xs.length ≤ blk.length) :
    (overwrite blk d xs).length = blk.length := by
  simp only [overwrite, List.length_append, List.length_take, List.length_drop]
  omega

theorem getElem?_overwrite (blk xs : List α) (d j : Nat) (h : d + xs.length ≤ blk.length) :
    (overwrite blk d xs)[j]? =
      if j < d then blk[j]? else if j < d + xs.length then xs[j - d]? else blk[j]? := by
  have hd : min d blk.length = d := by omega
  simp only [overwrite, List.getElem?_append, List.length_append, List.length_take,
    List.getElem?_take, List.getElem?_drop, hd]
  by_cases h1 : j < d
  · have h2 : j < d + xs.length := by omega
    simp [h1, h2]
  · by_cases h2 : j < d + xs.length
    · simp [h1, h2]
    · simp only [h1, h2, if_false]
      congr 1
      omega

theorem length_slice (blk : List α) (first last : Nat) (h : last ≤ blk.length) :
    (slice blk first last).length = last - first := by
  simp only [slice, List.length_take, List.length_drop]
  omega

theorem getElem?_slice (blk : List α) (first last j : Nat) :
    (slice blk first last)[j]? = if j < last - first then blk[first + j]? else none := by
  simp [slice, List.getElem?_take]

theorem length_map_range (f : α → α) (blk : List α) (first last : Nat)
    (h1 : first ≤ last) (h2 : last ≤ blk.length) :
    (map_range f blk first last).length = blk.length := by
  simp only [map_range, List.length_append, List.length_take, List.length_drop,
    List.length_map]
  omega

theorem getElem?_map_range (f : α → α) (blk : List α) (first last j : Nat)
    (h1 : first ≤ last) (h2 : last ≤ blk.length) :
    (map_range f blk first last)[j]? =
      if first ≤ j ∧ j < last then blk[j]?.map f else blk[j]? := by
  have hd : min first blk.length = first := by omega
  have hm : min (last - first) (blk.length - first) = last - first := by omega
  simp only [map_range, List.getElem?_append, List.length_append, List.length_take,
    List.getElem?_take, List.getElem?_drop, List.length_map, List.length_drop,
    List.getElem?_map, hd, hm]
  by_cases h3 : j < first
  · have h4 : j < first + (last - first) := by omega
    have h5 : ¬ (first ≤ j ∧ j < last) := by omega
    simp [h3, h4, h5]
  · by_cases h4 : j < last
    · have h5 : j < first + (last - first) := by omega
      have h6 : j - first < last - first := by omega
      have h7 : first ≤ j ∧ j < last := by omega
      have h8 : first + (j - first) = j := by omega
      simp [h3, h5, h6, h7, h8]
    · have h5 : ¬ j < first + (last - first) := by omega
      have h7 : ¬ (first ≤ j ∧ j < last) := by omega
      have h8 : last + (j - (first + (last - first))) = j := by omega
      simp [h3, h5, h7, h8]

theorem take_set_succ (l : List α) (n : Nat) (x : α) (h : n < l.length) :
    (l.set n x).take (n + 1) = l.take n ++ [x] := by
  apply List.ext_getElem?
  intro j
  simp only [List.getElem?_take, List.getElem?_set, List.getElem?_append, List.length_take]
  have hm : min n l.length = n := by omega
  rw [hm]
  by_cases h1 : j < n
  · have h2 : j < n + 1 := by omega
    have h3 : n ≠ j := by omega
    simp [h1, h2, h3]
  · by_cases h2 : j = n
    · subst h2
      simp [h]
    · have h3 : ¬ j < n + 1 := by omega
      have h4 : j - n ≠ 0 := by omega
      simp [h1, h3]
      cases hj : j - n with
      | zero => omega
      | succ k => simp

theorem store_ok (p : Ptr α) (i : Nat) (x : α) (h : i < (slots p).length) :
    store p i x = .ok (some ((slots p).set i x)) := by
  cases p with
  | none => simp [slots] at h
  | some blk =>
    simp only [slots, Option.getD_some] at h
    simp [store, h, slots]

theorem load_ok (p : Ptr α) (i : Nat) (h : i < (slots p).length) :
    load p i = .ok ((slots p)[i]) := by
  simp [load, List.getElem?_eq_getElem h]

theorem slots_map (p : Ptr α) (f : List α → List α) (h : f [] = []) :
    slots (p.map f) = f (slots p) := by
  cases p <;> simp [slots, h]

theorem slots_some (blk : List α) : slots (some blk) = blk := rfl

theorem slots_none : slots (none : Ptr α) = [] := rfl

theorem slots_map_overwrite (p : Ptr α) (d : Nat) (xs : List α)
    (h : d + xs.length ≤ (slots p).length) :
    slots (p.map fun blk => overwrite blk d xs) = overwrite (slots p) d xs := by
  cases p with
  | none =>
    have hx : xs = [] := by
      apply List.eq_nil_of_length_eq_zero
      simp only [slots, Option.getD_none, List.length_nil] at h
      omega
    simp [slots, overwrite, hx]
  | some blk => simp [slots]

theorem slots_map_map_range (f : α → α) (p : Ptr α) (first last : Nat) :
    slots (p.map fun blk => map_range f blk first last)
      = map_range f (slots p) first last := by
  cases p <;> simp [slots, map_range]

theorem std_copy_ok (src dst : Ptr α) (first last d_first : Nat)
    (h1 : first ≤ last) (h2 : last ≤ (slots src).length)
    (h3 : d_first + (last - first) ≤ (slots dst).length) :
    std_copy src first last dst d_first
      = .ok (dst.map fun blk => overwrite blk d_first (slice (slots src) first last)) := by
  simp [std_copy, h1, h2, h3]

theorem std_move_ok [Elem α] (src dst : Ptr α) (first last d_first : Nat)
    (h1 : first ≤ last) (h2 : last ≤ (slots src).length)
    (h3 : d_first + (last - first) ≤ (slots dst).length) :
    std_move src first last dst d_first
      = .ok (src.map fun blk => map_range Elem.moved blk first last,
          dst.map fun blk => overwrite blk d_first (slice (slots src) first last)) := by
  simp [std_move, h1, h2, h3]

theorem slots_new_array [Elem α] (n : Nat) :
    slots (new_array n : Ptr α) = List.replicate n Elem.indet := rfl

theorem slots_new_array_value [Elem α] (n : Nat) :
    slots (new_array_value n : Ptr α) = List.replicate n Elem.dflt := rfl

namespace SimpleVector

/-- The in-place branch of both `PushBack` overloads. -/
theorem PushBack_in_place [Elem α] (v : SimpleVector α) (x : α) (mv : Bool)
    (h1 : v.size_ < v.capacity_) (h2 : v.capacity_ ≤ v.allocated) :
    (if mv then v.PushBackMove x else v.PushBack x)
      = .ok { v with items_ := some ((slots v.items_).set v.size_ x), size_ := v.size_ + 1 } := by
  have h3 : v.size_ < (slots v.items_).length := by
    unfold allocated at h2
    omega
  cases mv <;>
    simp [PushBack, PushBackMove, h1, store_ok _ _ _ h3, bind, Except.bind, pure, Except.pure]

theorem push_all_in_place [Elem α] (calls : List (Bool × α)) :
    ∀ v : SimpleVector α, v.size_ + calls.length ≤ v.capacity_ → v.capacity_ ≤ v.allocated →
      ∃ w, push_all v calls = .ok w ∧ w.capacity_ = v.capacity_ ∧
        w.size_ = v.size_ + calls.length ∧ w.allocated = v.allocated ∧
        w.live = v.live ++ calls.map Prod.snd := by
  induction calls with
  | nil =>
    intro v _ _
    exact ⟨v, rfl, rfl, rfl, rfl, by simp⟩
  | cons c rest ih =>
    intro v h1 h2
    obtain ⟨mv, x⟩ := c
    simp only [List.length_cons] at h1
    have hlt : v.size_ < v.capacity_ := by omega
    have h3 : v.size_ < (slots v.items_).length := by
      unfold allocated at h2
      omega
    obtain ⟨w, hw, hc, hs, ha, hl⟩ :=
      ih { v with items_ := some ((slots v.items_).set v.size_ x), size_ := v.size_ + 1 }
        (by simp only; omega) (by simpa [allocated, slots] using h2)
    refine ⟨w, ?_, ?_, ?_, ?_, ?_⟩
    · simp only [push_all, PushBack_in_place v x mv hlt h2]
      exact hw
    · simpa using hc
    · simp only [List.length_cons]
      simp only at hs
      omega
    · simpa [allocated, slots] using ha
    · rw [hl]
      show List.take (v.size_ + 1) ((slots v.items_).set v.size_ x) ++ _
        = List.take v.size_ (slots v.items_) ++ _
      rw [take_set_succ _ _ _ h3]
      simp

end SimpleVector

theorem index_of_natCast (n : Nat) : index_of (n : Int) = n := by
  have h : ¬ ((n : Int) < 0) := by omega
  simp [index_of, h]

theorem getElem?_insert_form (l : List α) (i j : Nat) (x : α) (h : i ≤ l.length) :
    (l.take i ++ x :: l.drop i)[j]? =
      if j < i then l[j]? else if j = i then some x else l[j - 1]? := by
  have hm : min i l.length = i := by omega
  simp only [List.getElem?_append, List.length_take, hm, List.getElem?_take]
  by_cases h1 : j < i
  · simp [h1]
  · by_cases h2 : j = i
    · subst h2
      simp
    · simp only [h1, h2, if_false]
      obtain ⟨k, hk⟩ : ∃ k, j - i = k + 1 := ⟨j - i - 1, by omega⟩
      rw [hk, List.getElem?_cons_succ, List.getElem?_drop]
      congr 1
      omega

/-- The live elements after the reallocating branch of `Insert`. -/
theorem insert_realloc_live (S : List α) (N s i : Nat) (x junk : α)
    (hs : s ≤ S.length) (hi : i ≤ s) (hN : s + 1 ≤ N) :
    (overwrite ((overwrite (List.replicate N junk) 0 (slice S 0 i)).set i x) (i + 1)
        (slice S i s)).take (s + 1)
      = (S.take s).take i ++ x :: (S.take s).drop i := by
  have l0 : (slice S 0 i).length = i := by rw [length_slice _ _ _ (by omega)]; omega
  have l1 : (slice S i s).length = s - i := length_slice _ _ _ hs
  have b1 : (overwrite (List.replicate N junk) 0 (slice S 0 i)).length = N := by
    rw [length_overwrite _ _ _ (by simp [l0]; omega)]; simp
  apply List.ext_getElem?
  intro j
  rw [getElem?_insert_form _ _ _ _ (by simp; omega), List.getElem?_take,
    getElem?_overwrite _ _ _ _ (by simp [b1, l1]; omega), List.getElem?_set,
    getElem?_overwrite _ _ _ _ (by simp [l0]; omega), l0, l1, b1, getElem?_slice,
    getElem?_slice, List.getElem?_take, List.getElem?_take]
  by_cases h1 : j < i
  · have h2 : j < s + 1 := by omega
    have h3 : j < i + 1 := by omega
    have h4 : i ≠ j := by omega
    have h5 : j < s := by omega
    simp [h1, h2, h3, h4, h5]
  · by_cases h2 : j = i
    · subst h2
      have h3 : j < N := by omega
      simp [h3]
      omega
    · have h3 : ¬ j < i + 1 := by omega
      by_cases h4 : j < s + 1
      · have h5 : j < i + 1 + (s - i) := by omega
        have h6 : j - (i + 1) < s - i := by omega
        have h7 : j - 1 < s := by omega
        have h8 : i + (j - (i + 1)) = j - 1 := by omega
        simp [h1, h2, h3, h4, h5, h6, h7, h8]
      · have h7 : ¬ j - 1 < s := by omega
        simp [h1, h2, h4, h7]

/-- The live elements after the in-place branch of `Insert`. -/
theorem insert_in_place_live (S : List α) (s i : Nat) (x : α)
    (hs : s < S.length) (hi : i ≤ s) :
    ((overwrite S (s + 1 - (s - i)) (slice S i s)).set i x).take (s + 1)
      = (S.take s).take i ++ x :: (S.take s).drop i := by
  have l1 : (slice S i s).length = s - i := length_slice _ _ _ (by omega)
  have hb : s + 1 - (s - i) + (slice S i s).length ≤ S.length := by rw [l1]; omega
  have b1 : (overwrite S (s + 1 - (s - i)) (slice S i s)).length = S.length :=
    length_overwrite _ _ _ hb
  apply List.ext_getElem?
  intro j
  rw [getElem?_insert_form _ _ _ _ (by simp; omega), List.getElem?_take,
    List.getElem?_set, getElem?_overwrite _ _ _ _ hb, l1, b1, getElem?_slice,
    List.getElem?_take, List.getElem?_take]
  by_cases h1 : j < i
  · have h2 : j < s + 1 := by omega
    have h3 : j < s + 1 - (s - i) := by omega
    have h4 : i ≠ j := by omega
    have h5 : j < s := by omega
    simp [h1, h2, h3, h4, h5]
  · by_cases h2 : j = i
    · subst h2
      have h3 : j < S.length := by omega
      simp [h3]
      omega
    · have h3 : ¬ j < s + 1 - (s - i) := by omega
      have h3b : i ≠ j := by omega
      by_cases h4 : j < s + 1
      · have h5 : j < s + 1 - (s - i) + (s - i) := by omega
        have h6 : j - (s + 1 - (s - i)) < s - i := by omega
        have h7 : j - 1 < s := by omega
        have h8 : i + (j - (s + 1 - (s - i))) = j - 1 := by omega
        simp [h1, h2, h3, h3b, h4, h5, h6, h7, h8]
      · have h7 : ¬ j - 1 < s := by omega
        simp [h1, h2, h4, h7]

namespace SimpleVector


theorem pos_check_natCast (v : SimpleVector α) (i : Nat) : v.pos_check (i : Int) = true := by
  simp [pos_check, begin_]

/-- The copying `Insert` at an index `i <= size`, for a vector whose live indices address
allocated slots and which has a free slot whenever its size differs from its capacity. -/
theorem Insert_ok [Elem α] (v : SimpleVector α) (i : Nat) (x : α)
    (hl : v.size_ ≤ v.allocated) (hp : v.size_ ≠ v.capacity_ → v.size_ < v.allocated)
    (hi : i ≤ v.size_) :
    ∃ w, v.Insert (i : Int) (.outside x) = .ok (w, (i : Int)) ∧ w.size_ = v.size_ + 1 ∧
      w.live = v.live.take i ++ x :: v.live.drop i ∧ w.size_ ≤ w.allocated ∧
      w.capacity_ = (if v.size_ = v.capacity_
        then (if v.capacity_ = 0 then 1 else v.capacity_ * 2) else v.capacity_) := by
  obtain ⟨items, size, cap⟩ := v
  simp only [allocated] at hl hp hi ⊢
  have l1 : (slice (slots items) i size).length = size - i := length_slice _ _ _ hl
  by_cases hc : size = cap
  · subst hc
    have hN : size + 1 ≤ (if size = 0 then 1 else size * 2) := by
      split <;> omega
    generalize hNd : (if size = 0 then 1 else size * 2) = N at hN
    have l0 : (slice (slots items) 0 i).length = i := by
      rw [length_slice _ _ _ (by omega)]; omega
    have b1 : (overwrite (List.replicate N (Elem.indet : α)) 0
        (slice (slots items) 0 i)).length = N := by
      rw [length_overwrite _ _ _ (by rw [l0, List.length_replicate]; omega)]; simp
    refine ⟨⟨some (overwrite ((overwrite (List.replicate N Elem.indet) 0
        (slice (slots items) 0 i)).set i x) (i + 1) (slice (slots items) i size)),
        size + 1, N⟩, ?_, rfl, ?_, ?_, ?_⟩
    · have s1 := std_copy_ok items (new_array N) 0 i 0 (by omega) (by omega)
        (by rw [slots_new_array, List.length_replicate]; omega)
      have s2 := store_ok (some (overwrite (List.replicate N (Elem.indet : α)) 0
        (slice (slots items) 0 i))) i x (by rw [slots_some, b1]; omega)
      have s3 := std_copy_ok items (some ((overwrite (List.replicate N (Elem.indet : α)) 0
        (slice (slots items) 0 i)).set i x)) i size (i + 1) hi hl
        (by rw [slots_some, List.length_set, b1]; omega)
      simp only [new_array, Option.map_some'] at s1
      simp only [slots_some] at s2
      simp only [Option.map_some'] at s3
      simp only [Insert, Ref.read, pos_check_natCast, index_of_natCast, hNd, if_true,
        new_array, s1, s2, s3, bind, Except.bind, pure, Except.pure, Bool.not_true,
        Bool.false_eq_true, if_false, not_true_eq_false]
    · exact insert_realloc_live _ _ _ _ _ _ hl hi hN
    · simp only [slots_some]
      rw [length_overwrite _ _ _ (by rw [List.length_set, b1, l1]; omega), List.length_set, b1]
      omega
    · simp [hNd]
  · have hlt := hp hc
    have hb : size + 1 - (size - i) + (slice (slots items) i size).length
        ≤ (slots items).length := by rw [l1]; omega
    have b1 : (overwrite (slots items) (size + 1 - (size - i))
        (slice (slots items) i size)).length = (slots items).length :=
      length_overwrite _ _ _ hb
    refine ⟨⟨some ((overwrite (slots items) (size + 1 - (size - i))
        (slice (slots items) i size)).set i x), size + 1, cap⟩,
        ?_, rfl, ?_, ?_, ?_⟩
    · have hsome : items = some (slots items) := by
        cases items with
        | none => simp [slots_none] at hlt
        | some blk => rfl
      have s1 : std_copy_backward items i size (size + 1)
          = .ok (some (overwrite (slots items) (size + 1 - (size - i))
              (slice (slots items) i size))) := by
        have hcond : i ≤ size ∧ size < size + 1 ∧ size + 1 ≤ (slots items).length :=
          ⟨hi, by omega, by omega⟩
        simp only [std_copy_backward, hcond, and_self, if_true]
        rw [hsome]
        simp [slots_some]
      have s2 := store_ok (some (overwrite (slots items) (size + 1 - (size - i))
        (slice (slots items) i size))) i x (by rw [slots_some, b1]; omega)
      simp only [slots_some] at s2
      simp only [Insert, Ref.read, pos_check_natCast, index_of_natCast, hc, if_false, s1, s2,
        bind, Except.bind, pure, Except.pure, Bool.not_true, Bool.false_eq_true,
        not_true_eq_false]
    · exact insert_in_place_live _ _ _ _ hlt hi
    · simp only [slots_some, List.length_set]
      rw [b1]
      omega
    · simp [hc]

end SimpleVector

/-- The live elements after the left shift of `Erase`. -/
theorem erase_live (f : α → α) (S : List α) (s i : Nat) (hs : s ≤ S.length) (hi : i < s) :
    (overwrite (map_range f S (i + 1) s) i (slice S (i + 1) s)).take (s - 1)
      = (S.take s).eraseIdx i := by
  have l1 : (slice S (i + 1) s).length = s - (i + 1) := length_slice _ _ _ hs
  have m1 : (map_range f S (i + 1) s).length = S.length :=
    length_map_range _ _ _ _ (by omega) hs
  apply List.ext_getElem?
  intro j
  rw [List.getElem?_eraseIdx, List.getElem?_take,
    getElem?_overwrite _ _ _ _ (by rw [l1, m1]; omega), l1, getElem?_slice,
    getElem?_map_range _ _ _ _ _ (by omega) hs, List.getElem?_take, List.getElem?_take]
  by_cases h1 : j < i
  · have h2 : j < s - 1 := by omega
    have h3 : ¬ i + 1 ≤ j := by omega
    have h4 : j < s := by omega
    simp [h1, h2, h3, h4]
  · by_cases h2 : j < s - 1
    · have h3 : j < i + (s - (i + 1)) := by omega
      have h4 : j - i < s - (i + 1) := by omega
      have h5 : j + 1 < s := by omega
      have h6 : i + 1 + (j - i) = j + 1 := by omega
      simp [h1, h2, h3, h4, h5, h6]
    · have h5 : ¬ j + 1 < s := by omega
      simp [h1, h2, h5]

theorem fill_loop_ok [Elem α] (n : Nat) :
    ∀ (p : Ptr α) (first : Nat), first + n ≤ (slots p).length →
      ∃ q, SimpleVector.fill_loop p first n = .ok q ∧
        slots q = overwrite (slots p) first (List.replicate n Elem.dflt) := by
  induction n with
  | zero =>
    intro p first _
    exact ⟨p, rfl, by simp [overwrite]⟩
  | succ n ih =>
    intro p first h
    have hs := store_ok p first (Elem.dflt : α) (by omega)
    obtain ⟨q, hq, hsl⟩ := ih (some ((slots p).set first Elem.dflt)) (first + 1)
      (by rw [slots_some, List.length_set]; omega)
    refine ⟨q, ?_, ?_⟩
    · simp only [SimpleVector.fill_loop, hs]
      exact hq
    · rw [hsl, slots_some]
      apply List.ext_getElem?
      intro j
      rw [getElem?_overwrite _ _ _ _ (by rw [List.length_set, List.length_replicate]; omega),
        getElem?_overwrite _ _ _ _ (by rw [List.length_replicate]; omega),
        List.getElem?_set, List.getElem?_replicate, List.getElem?_replicate,
        List.length_replicate, List.length_replicate]
      by_cases h1 : j < first
      · have h2 : j < first + 1 := by omega
        have h3 : first ≠ j := by omega
        simp [h1, h2, h3]
      · by_cases h2 : j = first
        · subst h2
          have h3 : j < (slots p).length := by omega
          simp [h3]
        · have h3 : ¬ j < first + 1 := by omega
          by_cases h4 : j < first + 1 + n
          · have h5 : j < first + (n + 1) := by omega
            have h6 : j - (first + 1) < n := by omega
            have h7 : j - first < n + 1 := by omega
            simp [h1, h3, h4, h5, h6, h7]
          · have h5 : ¬ j < first + (n + 1) := by omega
            have h6 : first ≠ j := by omega
            simp [h1, h3, h4, h5, h6]

/-- The live elements after `Resize` has written `Type()` into fresh or stale slots. -/
theorem resize_fill_live (S : List α) (B : List α) (s n : Nat) (d : α)
    (hs : s ≤ S.length) (hn : s ≤ n)
    (hlow : ∀ j, j < s → B[j]? = S[j]?) (hhigh : ∀ j, s ≤ j → j < n → B[j]? = some d) :
    B.take n = (S.take s).take n ++ List.replicate (n - s) d := by
  apply List.ext_getElem?
  intro j
  have hm : min n (min s S.length) = s := by omega
  rw [List.getElem?_take, List.getElem?_append, List.length_take, List.length_take, hm,
    List.getElem?_take, List.getElem?_take, List.getElem?_replicate]
  by_cases h1 : j < s
  · have h2 : j < n := by omega
    simp [h1, h2, hlow j h1]
  · by_cases h2 : j < n
    · have h3 : j - s < n - s := by omega
      simp [h1, h2, h3, hhigh j (by omega) h2]
    · have h3 : ¬ j - s < n - s := by omega
      simp [h1, h2, h3]

namespace SimpleVector


/-- The member function `Erase` at an index `i < size`, for a vector whose live indices
address allocated slots. -/
theorem Erase_ok [Elem α] (v : SimpleVector α) (i : Nat)
    (hl : v.size_ ≤ v.allocated) (hi : i < v.size_) :
    ∃ w, v.Erase (i : Int) = .ok (w, (i : Int)) ∧ w.size_ = v.size_ - 1 ∧
      w.capacity_ = v.capacity_ ∧ w.allocated = v.allocated ∧
      w.live = v.live.eraseIdx i := by
  obtain ⟨items, size, cap⟩ := v
  simp only [allocated] at hl hi ⊢
  have hsome : items = some (slots items) := by
    cases items with
    | none =>
      rw [slots_none, List.length_nil] at hl
      omega
    | some blk => rfl
  have l1 : (slice (slots items) (i + 1) size).length = size - (i + 1) := length_slice _ _ _ hl
  have m1 : (map_range (Elem.moved : α → α) (slots items) (i + 1) size).length
      = (slots items).length := length_map_range _ _ _ _ (by omega) hl
  have hd : decr size = size - 1 := by
    have h0 : size ≠ 0 := by omega
    simp [decr, h0]
  refine ⟨⟨some (overwrite (map_range Elem.moved (slots items) (i + 1) size) i
      (slice (slots items) (i + 1) size)), size - 1, cap⟩, ?_, rfl, rfl, ?_, ?_⟩
  · have hcond : i + 1 ≤ size ∧ size ≤ (slots items).length ∧ i < i + 1 :=
      ⟨by omega, hl, by omega⟩
    have s1 : std_move_left items (i + 1) size i
        = .ok (some (overwrite (map_range Elem.moved (slots items) (i + 1) size) i
            (slice (slots items) (i + 1) size))) := by
      simp only [std_move_left, hcond, and_self, if_true]
      rw [hsome]
      simp [slots_some]
    simp only [Erase, pos_check_natCast, index_of_natCast, s1, hd, bind, Except.bind, pure,
      Except.pure, Bool.not_true, Bool.false_eq_true, if_false, not_true_eq_false]
  · rw [slots_some, length_overwrite _ _ _ (by rw [l1, m1]; omega), m1]
  · exact erase_live _ _ _ _ hl hi

theorem take_map_range_low (f : α → α) (S : List α) (n s : Nat) (h1 : n ≤ s)
    (h2 : s ≤ S.length) : (map_range f S n s).take n = S.take n := by
  apply List.ext_getElem?
  intro j
  rw [List.getElem?_take, List.getElem?_take, getElem?_map_range _ _ _ _ _ h1 h2]
  by_cases h : j < n
  · have h3 : ¬ n ≤ j := by omega
    simp [h, h3]
  · simp [h]

/-- The member function `Resize` on a well-formed vector. -/
theorem Resize_ok [Elem α] (v : SimpleVector α) (n : Nat) (hw : v.WellFormed) :
    ∃ w, v.Resize n = .ok w ∧ w.size_ = n ∧
      w.capacity_ = (if n ≤ v.capacity_ then v.capacity_ else max (v.capacity_ * 2) n) ∧
      w.live = v.live.take n ++ List.replicate (n - v.size_) Elem.dflt ∧ w.WellFormed := by
  obtain ⟨items, size, cap⟩ := v
  obtain ⟨h1, h2⟩ := hw
  simp only [allocated] at h1 h2
  simp only [WellFormed, allocated, live]
  have hl : size ≤ (slots items).length := by omega
  by_cases hc : n ≤ cap
  · by_cases hlt : n < size
    · have hcond : n ≤ size ∧ size ≤ (slots items).length := ⟨by omega, hl⟩
      refine ⟨⟨items.map fun blk => map_range Elem.dead blk n size, n, cap⟩, ?_, rfl, ?_, ?_,
        ?_⟩
      · simp [Resize, hc, hlt, std_destroy, hcond, bind, Except.bind, pure, Except.pure]
      · simp [hc]
      · have h0 : n - size = 0 := by omega
        have hm : min n size = n := by omega
        simp only [slots_map_map_range, h0, List.replicate_zero, List.append_nil,
          List.take_take, hm]
        exact take_map_range_low _ _ _ _ (by omega) hl
      · simp only [slots_map_map_range]
        rw [length_map_range _ _ _ _ (by omega) hl]
        exact ⟨hc, h2⟩
    · by_cases hgt : n > size
      · obtain ⟨q, hq, hsl⟩ := fill_loop_ok (n - size) items size (by omega)
        have hlen : (overwrite (slots items) size
            (List.replicate (n - size) (Elem.dflt : α))).length = (slots items).length :=
          length_overwrite _ _ _ (by rw [List.length_replicate]; omega)
        refine ⟨⟨q, n, cap⟩, ?_, rfl, ?_, ?_, ?_⟩
        · simp [Resize, hc, hlt, hgt, hq, bind, Except.bind, pure, Except.pure]
        · simp [hc]
        · dsimp only
          apply resize_fill_live _ _ _ _ _ hl (by omega)
          · intro j hj
            rw [hsl, getElem?_overwrite _ _ _ _ (by rw [List.length_replicate]; omega)]
            simp [hj]
          · intro j hj1 hj2
            have h3 : ¬ j < size := by omega
            have h4 : j < size + (n - size) := by omega
            have h5 : j - size < n - size := by omega
            rw [hsl, getElem?_overwrite _ _ _ _ (by rw [List.length_replicate]; omega)]
            simp [h3, h4, h5, List.getElem?_replicate]
        · rw [hsl, hlen]
          exact ⟨hc, h2⟩
      · have he : n = size := by omega
        subst he
        refine ⟨⟨items, n, cap⟩, ?_, rfl, ?_, ?_, ⟨hc, h2⟩⟩
        · simp [Resize, hc, pure, Except.pure]
        · simp [hc]
        · simp
  · have hN : n ≤ max (cap * 2) n := le_max_right _ _
    generalize hNd : max (cap * 2) n = N at hN
    have l0 : (slice (slots items) 0 size).length = size := by
      rw [length_slice _ _ _ hl]; omega
    have hfit : 0 + (slice (slots items) 0 size).length
        ≤ (List.replicate N (Elem.dflt : α)).length := by
      rw [l0, List.length_replicate]; omega
    have s1 := std_move_ok items (new_array_value N) 0 size 0 (by omega) hl
      (by rw [slots_new_array_value, List.length_replicate]; omega)
    simp only [new_array_value, Option.map_some'] at s1
    refine ⟨⟨some (overwrite (List.replicate N Elem.dflt) 0 (slice (slots items) 0 size)), n,
      N⟩, ?_, rfl, ?_, ?_, ?_⟩
    · simp [Resize, hc, hNd, new_array_value, s1, bind, Except.bind, pure, Except.pure]
    · simp [hc, hNd]
    · dsimp only
      rw [slots_some]
      apply resize_fill_live _ _ _ _ _ hl (by omega)
      · intro j hj
        rw [getElem?_overwrite _ _ _ _ hfit, l0, getElem?_slice]
        simp [hj]
      · intro j hj1 hj2
        have h3 : ¬ j < size := by omega
        have h5 : j < N := by omega
        rw [getElem?_overwrite _ _ _ _ hfit, l0, List.getElem?_replicate]
        simp [h3, h5]
    · rw [slots_some, length_overwrite _ _ _ hfit, List.length_replicate]
      exact ⟨hN, le_refl _⟩

end SimpleVector

/-- Putting an erased element back where it was. -/
theorem eraseIdx_insert_back (l : List α) (i : Nat) (x : α) (h : l[i]? = some x) :
    (l.eraseIdx i).take i ++ x :: (l.eraseIdx i).drop i = l := by
  have hi : i < l.length := by
    by_contra hc
    rw [List.getElem?_eq_none (by omega)] at h
    exact Option.noConfusion h
  apply List.ext_getElem?
  intro j
  rw [getElem?_insert_form _ _ _ _ (by rw [List.length_eraseIdx]; split <;> omega),
    List.getElem?_eraseIdx, List.getElem?_eraseIdx]
  by_cases h1 : j < i
  · simp [h1]
  · by_cases h2 : j = i
    · subst h2
      simp [h]
    · have h3 : ¬ j - 1 < i := by omega
      have h4 : j - 1 + 1 = j := by omega
      simp [h1, h2, h3, h4]

namespace SimpleVector

/-- Checked access to a live element. -/
theorem At_of_live (v : SimpleVector α) (j : Nat) (x : α) (h : v.live[j]? = some x) :
    v.At j = .ok x := by
  simp only [live, List.getElem?_take] at h
  by_cases hj : j < v.size_
  · have hn : ¬ j ≥ v.size_ := by omega
    simp only [hj, if_true] at h
    simp [At, hn, load, h]
  · simp [hj] at h

/-- The capacity `Resize` leaves behind, whenever it returns. -/
theorem Resize_capacity [Elem α] (v w : SimpleVector α) (n : Nat) (h : v.Resize n = .ok w) :
    w.capacity_ = if n ≤ v.capacity_ then v.capacity_ else max (v.capacity_ * 2) n := by
  unfold Resize at h
  by_cases hc : n ≤ v.capacity_
  · simp only [hc, if_true] at h ⊢
    by_cases h1 : n < v.size_
    · simp only [h1, if_true, bind, Except.bind] at h
      cases hd : std_destroy v.items_ n v.size_ with
      | error e => simp [hd] at h
      | ok q =>
        simp only [hd, pure, Except.pure, Except.ok.injEq] at h
        rw [← h]
    · by_cases h2 : n > v.size_
      · simp only [h1, h2, if_true, if_false, bind, Except.bind] at h
        cases hd : fill_loop v.items_ v.size_ (n - v.size_) with
        | error e => simp [hd] at h
        | ok q =>
          simp only [hd, pure, Except.pure, Except.ok.injEq] at h
          rw [← h]
      · simp only [h1, h2, if_false, pure, Except.pure, Except.ok.injEq] at h
        rw [← h]
  · simp only [hc, if_false, bind, Except.bind] at h ⊢
    cases hd : std_move v.items_ 0 v.size_ (new_array_value (max (v.capacity_ * 2) n)) 0 with
    | error e => simp [hd] at h
    | ok q =>
      simp only [hd, pure, Except.pure, Except.ok.injEq] at h
      rw [← h]

end SimpleVector

/-- The member function `Reserve` called on the default-constructed vector. -/
theorem SimpleVector.Reserve_default [Elem α] (n : Nat) :
    ∃ v : SimpleVector α, Reserve {} n = .ok v ∧ v.size_ = 0 ∧ v.capacity_ = n ∧
      v.capacity_ ≤ v.allocated ∧ v.live = [] := by
  by_cases h : n > 0
  · refine ⟨{ items_ := new_array n, size_ := 0, capacity_ := n }, ?_, rfl, rfl, ?_, ?_⟩
    · simp [Reserve, h, copy_loop, bind, Except.bind, pure, Except.pure]
    · simp [allocated, slots_new_array]
    · simp [live]
  · have h0 : n = 0 := by omega
    subst h0
    exact ⟨{}, by simp [Reserve, pure, Except.pure], rfl, rfl, by simp [allocated], by simp [live]⟩

/-! ### What a returning primitive tells about the blocks -/

theorem bind_eq_ok {β γ : Type} (x : Except Fault β) (f : β → Except Fault γ) (c : γ)
    (h : (x >>= f) = .ok c) : ∃ b, x = .ok b ∧ f b = .ok c := by
  cases x with
  | error e => simp [bind, Except.bind] at h
  | ok b => exact ⟨b, rfl, h⟩

theorem store_returns (p q : Ptr α) (i : Nat) (x : α) (h : store p i x = .ok q) :
    i < (slots p).length ∧ (slots q).length = (slots p).length := by
  cases p with
  | none => simp [store] at h
  | some blk =>
    by_cases hi : i < blk.length
    · simp only [store, hi, if_true, Except.ok.injEq] at h
      subst h
      simp [slots_some, hi]
    · simp [store, hi] at h

theorem std_copy_returns (src dst q : Ptr α) (first last d_first : Nat)
    (h : std_copy src first last dst d_first = .ok q) :
    first ≤ last ∧ last ≤ (slots src).length ∧ d_first + (last - first) ≤ (slots dst).length ∧
      (slots q).length = (slots dst).length := by
  unfold std_copy at h
  split at h
  · rename_i hc
    obtain ⟨h1, h2, h3⟩ := hc
    simp only [Except.ok.injEq] at h
    subst h
    refine ⟨h1, h2, h3, ?_⟩
    have hlen : d_first + (slice (slots src) first last).length ≤ (slots dst).length := by
      rw [length_slice _ _ _ h2]
      exact h3
    rw [slots_map_overwrite _ _ _ hlen, length_overwrite _ _ _ hlen]
  · exact Except.noConfusion h

theorem std_move_returns [Elem α] (src dst : Ptr α) (q : Ptr α × Ptr α)
    (first last d_first : Nat) (h : std_move src first last dst d_first = .ok q) :
    first ≤ last ∧ last ≤ (slots src).length ∧ d_first + (last - first) ≤ (slots dst).length ∧
      (slots q.2).length = (slots dst).length := by
  unfold std_move at h
  split at h
  · rename_i hc
    obtain ⟨h1, h2, h3⟩ := hc
    simp only [Except.ok.injEq] at h
    subst h
    refine ⟨h1, h2, h3, ?_⟩
    have hlen : d_first + (slice (slots src) first last).length ≤ (slots dst).length := by
      rw [length_slice _ _ _ h2]
      exact h3
    rw [slots_map_overwrite _ _ _ hlen, length_overwrite _ _ _ hlen]
  · exact Except.noConfusion h

theorem std_move_left_returns [Elem α] (p q : Ptr α) (first last d_first : Nat)
    (h : std_move_left p first last d_first = .ok q) :
    first ≤ last ∧ last ≤ (slots p).length ∧ d_first < first ∧
      (slots q).length = (slots p).length := by
  unfold std_move_left at h
  split at h
  · rename_i hc
    obtain ⟨h1, h2, h3⟩ := hc
    simp only [Except.ok.injEq] at h
    subst h
    refine ⟨h1, h2, h3, ?_⟩
    cases p with
    | none => rfl
    | some blk =>
      simp only [slots_some] at h2
      simp only [Option.map_some', slots_some]
      rw [length_overwrite _ _ _ (by
        rw [length_slice _ _ _ h2, length_map_range _ _ _ _ h1 h2]; omega),
        length_map_range _ _ _ _ h1 h2]
  · exact Except.noConfusion h

theorem std_copy_backward_returns (p q : Ptr α) (first last d_last : Nat)
    (h : std_copy_backward p first last d_last = .ok q) :
    first ≤ last ∧ last < d_last ∧ d_last ≤ (slots p).length ∧
      (slots q).length = (slots p).length := by
  unfold std_copy_backward at h
  split at h
  · rename_i hc
    obtain ⟨h1, h2, h3⟩ := hc
    simp only [Except.ok.injEq] at h
    subst h
    refine ⟨h1, h2, h3, ?_⟩
    have hlen : d_last - (last - first) + (slice (slots p) first last).length
        ≤ (slots p).length := by
      rw [length_slice _ _ _ (by omega)]
      omega
    cases p with
    | none => rfl
    | some blk =>
      simp only [slots_some] at hlen
      simp only [Option.map_some', slots_some]
      rw [length_overwrite _ _ _ hlen]
  · exact Except.noConfusion h

theorem std_destroy_returns [Elem α] (p q : Ptr α) (first last : Nat)
    (h : std_destroy p first last = .ok q) :
    first ≤ last ∧ last ≤ (slots p).length ∧ (slots q).length = (slots p).length := by
  unfold std_destroy at h
  split at h
  · rename_i hc
    obtain ⟨h1, h2⟩ := hc
    simp only [Except.ok.injEq] at h
    subst h
    refine ⟨h1, h2, ?_⟩
    rw [slots_map_map_range, length_map_range _ _ _ _ h1 h2]
  · exact Except.noConfusion h

theorem fill_loop_returns [Elem α] (n : Nat) :
    ∀ (p q : Ptr α) (first : Nat), SimpleVector.fill_loop p first n = .ok q →
      (slots q).length = (slots p).length ∧ (0 < n → first + n ≤ (slots p).length) := by
  induction n with
  | zero =>
    intro p q first h
    simp only [SimpleVector.fill_loop, Except.ok.injEq] at h
    subst h
    exact ⟨rfl, fun h0 => absurd h0 (by omega)⟩
  | succ n ih =>
    intro p q first h
    simp only [SimpleVector.fill_loop] at h
    cases hs : store p first (Elem.dflt : α) with
    | error e => simp [hs] at h
    | ok p1 =>
      simp only [hs] at h
      obtain ⟨hb, hl⟩ := store_returns _ _ _ _ hs
      obtain ⟨hl2, hn⟩ := ih p1 q (first + 1) h
      refine ⟨by omega, fun _ => ?_⟩
      by_cases h0 : 0 < n
      · have := hn h0
        omega
      · omega

theorem copy_loop_returns (n : Nat) :
    ∀ (src dst q : Ptr α) (first : Nat), SimpleVector.copy_loop src dst first n = .ok q →
      (slots q).length = (slots dst).length ∧ (0 < n → first + n ≤ (slots dst).length) := by
  induction n with
  | zero =>
    intro src dst q first h
    simp only [SimpleVector.copy_loop, Except.ok.injEq] at h
    subst h
    exact ⟨rfl, fun h0 => absurd h0 (by omega)⟩
  | succ n ih =>
    intro src dst q first h
    simp only [SimpleVector.copy_loop] at h
    cases hld : load src first with
    | error e => simp [hld] at h
    | ok x =>
      simp only [hld] at h
      cases hs : store dst first x with
      | error e => simp [hs] at h
      | ok p1 =>
        simp only [hs] at h
        obtain ⟨hb, hl⟩ := store_returns _ _ _ _ hs
        obtain ⟨hl2, hn⟩ := ih src p1 q (first + 1) h
        refine ⟨by omega, fun _ => ?_⟩
        by_cases h0 : 0 < n
        · have := hn h0
          omega
        · omega

namespace SimpleVector


/-! ### Every operation that returns leaves the live indices inside the block -/

theorem Live_default : ({} : SimpleVector α).Live := by
  simp [Live, allocated]

theorem Live_Clear (v : SimpleVector α) : v.Clear.Live := by
  simp [Live, Clear]

theorem Live_PushBack [Elem α] (v w : SimpleVector α) (x : α) (h : v.PushBack x = .ok w) :
    w.Live := by
  unfold PushBack at h
  split at h
  · obtain ⟨q, hq, hw⟩ := bind_eq_ok _ _ _ h
    simp only [pure, Except.pure, Except.ok.injEq] at hw
    subst hw
    obtain ⟨h1, h2⟩ := store_returns _ _ _ _ hq
    simp only [Live, allocated]
    omega
  · obtain ⟨q, hq, h'⟩ := bind_eq_ok _ _ _ h
    obtain ⟨q2, hq2, hw⟩ := bind_eq_ok _ _ _ h'
    simp only [pure, Except.pure, Except.ok.injEq] at hw
    subst hw
    obtain ⟨h1, h2⟩ := store_returns _ _ _ _ hq2
    simp only [Live, allocated]
    omega

theorem Live_PushBackMove [Elem α] (v w : SimpleVector α) (x : α)
    (h : v.PushBackMove x = .ok w) : w.Live := by
  unfold PushBackMove at h
  split at h
  · obtain ⟨q, hq, hw⟩ := bind_eq_ok _ _ _ h
    simp only [pure, Except.pure, Except.ok.injEq] at hw
    subst hw
    obtain ⟨h1, h2⟩ := store_returns _ _ _ _ hq
    simp only [Live, allocated]
    omega
  · obtain ⟨q, hq, h'⟩ := bind_eq_ok _ _ _ h
    obtain ⟨q2, hq2, hw⟩ := bind_eq_ok _ _ _ h'
    simp only [pure, Except.pure, Except.ok.injEq] at hw
    subst hw
    obtain ⟨h1, h2⟩ := store_returns _ _ _ _ hq2
    simp only [Live, allocated]
    omega

theorem Live_Reserve [Elem α] (v w : SimpleVector α) (n : Nat) (hv : v.Live)
    (h : v.Reserve n = .ok w) : w.Live := by
  unfold Reserve at h
  split at h
  · obtain ⟨q, hq, hw⟩ := bind_eq_ok _ _ _ h
    simp only [pure, Except.pure, Except.ok.injEq] at hw
    subst hw
    obtain ⟨h1, h2⟩ := copy_loop_returns _ _ _ _ _ hq
    simp only [Live, allocated]
    by_cases h0 : 0 < v.size_
    · have := h2 h0
      omega
    · omega
  · simp only [pure, Except.pure, Except.ok.injEq] at h
    subst h
    exact hv

theorem Live_ofList [Elem α] (init : List α) (w : SimpleVector α) (h : ofList init = .ok w) :
    w.Live := by
  unfold ofList at h
  obtain ⟨q, hq, hw⟩ := bind_eq_ok _ _ _ h
  simp only [pure, Except.pure, Except.ok.injEq] at hw
  subst hw
  obtain ⟨_, _, _, h4⟩ := std_copy_returns _ _ _ _ _ _ hq
  simp only [Live, allocated, h4, slots_new_array, List.length_replicate]
  exact le_refl _

theorem Live_Resize [Elem α] (v w : SimpleVector α) (n : Nat) (hv : v.Live)
    (h : v.Resize n = .ok w) : w.Live := by
  unfold Live allocated at hv
  unfold Resize at h
  split at h
  · split at h
    · obtain ⟨q, hq, hw⟩ := bind_eq_ok _ _ _ h
      simp only [pure, Except.pure, Except.ok.injEq] at hw
      subst hw
      obtain ⟨_, _, h3⟩ := std_destroy_returns _ _ _ _ hq
      simp only [Live, allocated]
      omega
    · split at h
      · obtain ⟨q, hq, hw⟩ := bind_eq_ok _ _ _ h
        simp only [pure, Except.pure, Except.ok.injEq] at hw
        subst hw
        obtain ⟨h1, h2⟩ := fill_loop_returns _ _ _ _ hq
        have := h2 (by omega)
        simp only [Live, allocated]
        omega
      · simp only [pure, Except.pure, Except.ok.injEq] at h
        subst h
        simp only [Live, allocated]
        omega
  · obtain ⟨q, hq, hw⟩ := bind_eq_ok _ _ _ h
    simp only [pure, Except.pure, Except.ok.injEq] at hw
    subst hw
    obtain ⟨_, _, _, h4⟩ := std_move_returns _ _ _ _ _ _ hq
    simp only [Live, allocated, h4, slots_new_array_value, List.length_replicate]
    exact le_max_right _ _

theorem Live_PopBack [Elem α] (v w : SimpleVector α) (hv : v.Live) (h : v.PopBack = .ok w) :
    w.Live := by
  unfold Live allocated at hv
  unfold PopBack at h
  split at h
  · exact Except.noConfusion h
  · rename_i hpos
    obtain ⟨q, hq, hw⟩ := bind_eq_ok _ _ _ h
    simp only [pure, Except.pure, Except.ok.injEq] at hw
    subst hw
    obtain ⟨_, _, h3⟩ := std_destroy_returns _ _ _ _ hq
    have h0 : v.size_ ≠ 0 := by omega
    simp only [Live, allocated, decr, h0, if_false]
    omega

theorem Live_Insert [Elem α] (v w : SimpleVector α) (pos p : Int) (x : Ref α)
    (h : v.Insert pos x = .ok (w, p)) : w.Live := by
  unfold Insert at h
  split at h
  · exact Except.noConfusion h
  · simp only at h
    split at h
    · obtain ⟨q1, hq1, h1⟩ := bind_eq_ok _ _ _ h
      obtain ⟨y, _, h1'⟩ := bind_eq_ok _ _ _ h1
      obtain ⟨q2, hq2, h2⟩ := bind_eq_ok _ _ _ h1'
      obtain ⟨q3, hq3, h3⟩ := bind_eq_ok _ _ _ h2
      simp only [pure, Except.pure, Except.ok.injEq, Prod.mk.injEq] at h3
      obtain ⟨hw, _⟩ := h3
      subst hw
      obtain ⟨a1, _, a3, a4⟩ := std_copy_returns _ _ _ _ _ _ hq3
      simp only [Live, allocated]
      omega
    · obtain ⟨q1, hq1, h1⟩ := bind_eq_ok _ _ _ h
      obtain ⟨y, _, h1'⟩ := bind_eq_ok _ _ _ h1
      obtain ⟨q2, hq2, h2⟩ := bind_eq_ok _ _ _ h1'
      simp only [pure, Except.pure, Except.ok.injEq, Prod.mk.injEq] at h2
      obtain ⟨hw, _⟩ := h2
      subst hw
      obtain ⟨_, _, a3, a4⟩ := std_copy_backward_returns _ _ _ _ _ hq1
      obtain ⟨_, b2⟩ := store_returns _ _ _ _ hq2
      simp only [Live, allocated]
      omega

theorem Live_Erase [Elem α] (v w : SimpleVector α) (pos p : Int)
    (h : v.Erase pos = .ok (w, p)) : w.Live := by
  unfold Erase at h
  split at h
  · exact Except.noConfusion h
  · obtain ⟨q, hq, hw⟩ := bind_eq_ok _ _ _ h
    simp only [pure, Except.pure, Except.ok.injEq, Prod.mk.injEq] at hw
    obtain ⟨hw, _⟩ := hw
    subst hw
    obtain ⟨a1, a2, _, a4⟩ := std_move_left_returns _ _ _ _ _ hq
    have h0 : v.size_ ≠ 0 := by omega
    simp only [Live, allocated, decr, h0, if_false]
    omega

end SimpleVector

/-- The live elements after the reallocating branch of `PushBack`. -/
theorem push_realloc_live (S : List α) (N s : Nat) (x junk : α)
    (hs : s ≤ S.length) (hN : s + 1 ≤ N) :
    ((overwrite (List.replicate N junk) 0 (slice S 0 s)).set s x).take (s + 1)
      = S.take s ++ [x] := by
  have l0 : (slice S 0 s).length = s := by rw [length_slice _ _ _ hs]; omega
  have hfit : 0 + (slice S 0 s).length ≤ (List.replicate N junk).length := by
    rw [l0, List.length_replicate]; omega
  have b1 : (overwrite (List.replicate N junk) 0 (slice S 0 s)).length = N := by
    rw [length_overwrite _ _ _ hfit, List.length_replicate]
  rw [take_set_succ _ _ _ (by rw [b1]; omega)]
  congr 1
  apply List.ext_getElem?
  intro j
  rw [List.getElem?_take, List.getElem?_take, getElem?_overwrite _ _ _ _ hfit, l0,
    getElem?_slice]
  by_cases h1 : j < s
  · simp [h1]
  · simp [h1]

namespace SimpleVector

/-- The reallocating branch of `PushBack(Type&&)`, and of `PushBack(const Type&)` when
the capacity is not 0. -/
theorem PushBack_realloc [Elem α] (v : SimpleVector α) (x : α) (mv : Bool)
    (h1 : ¬ v.size_ < v.capacity_) (h2 : v.size_ ≤ v.allocated)
    (h3 : v.size_ ≤ v.capacity_) (h4 : mv = true ∨ v.capacity_ ≠ 0) :
    ∃ w, (if mv then v.PushBackMove x else v.PushBack x) = .ok w ∧
      w.size_ = v.size_ + 1 ∧ w.capacity_ = max 1 (2 * v.capacity_) ∧
      w.allocated = w.capacity_ ∧ w.live = v.live ++ [x] := by
  obtain ⟨items, size, cap⟩ := v
  simp only [allocated] at h1 h2 h3 h4 ⊢
  have hN : size + 1 ≤ (if cap = 0 then 1 else cap * 2) := by
    split <;> omega
  have hmax : max 1 (2 * cap) = (if cap = 0 then 1 else cap * 2) := by
    split <;> omega
  generalize hNd : (if cap = 0 then 1 else cap * 2) = N at hN hmax
  have l0 : (slice (slots items) 0 size).length = size := by
    rw [length_slice _ _ _ h2]; omega
  have hfit : 0 + (slice (slots items) 0 size).length
      ≤ (List.replicate N (Elem.indet : α)).length := by
    rw [l0, List.length_replicate]; omega
  have b1 : (overwrite (List.replicate N (Elem.indet : α)) 0
      (slice (slots items) 0 size)).length = N := by
    rw [length_overwrite _ _ _ hfit, List.length_replicate]
  have s1 := std_copy_ok items (new_array N) 0 size 0 (by omega) h2
    (by rw [slots_new_array, List.length_replicate]; omega)
  have s1m := std_move_ok items (new_array N) 0 size 0 (by omega) h2
    (by rw [slots_new_array, List.length_replicate]; omega)
  have s2 := store_ok (some (overwrite (List.replicate N (Elem.indet : α)) 0
    (slice (slots items) 0 size))) size x (by rw [slots_some, b1]; omega)
  simp only [new_array, Option.map_some'] at s1 s1m
  simp only [slots_some] at s2
  refine ⟨⟨some ((overwrite (List.replicate N Elem.indet) 0
      (slice (slots items) 0 size)).set size x), size + 1, N⟩, ?_, rfl, hmax.symm, ?_, ?_⟩
  · cases mv with
    | true =>
      simp only [PushBackMove, h1, if_false, if_true, hNd, new_array, s1m, s2, bind,
        Except.bind, pure, Except.pure]
    | false =>
      have hc0 : cap ≠ 0 := by
        cases h4 with
        | inl h => exact absurd h (by decide)
        | inr h => exact h
      have hN2 : cap * 2 = N := by
        rw [← hNd, if_neg hc0]
      simp only [PushBack, h1, if_false, hc0, hN2, new_array, s1, s2, bind, Except.bind, pure,
        Except.pure, Bool.false_eq_true]
  · simp only [slots_some, List.length_set, b1]
  · exact push_realloc_live _ _ _ _ _ h2 hN

/-- A sequence of `PushBack` calls on a well-formed vector returns with the pushed values
appended to the live elements, unless it starts with `PushBack(const Type&)` on a vector
of capacity 0. -/
theorem push_all_ok [Elem α] (calls : List (Bool × α)) :
    ∀ v : SimpleVector α, v.WellFormed →
      (v.capacity_ ≠ 0 ∨ ∀ c ∈ calls.head?, c.1 = true) →
      ∃ w, push_all v calls = .ok w ∧ w.WellFormed ∧ w.size_ = v.size_ + calls.length ∧
        w.live = v.live ++ calls.map Prod.snd := by
  induction calls with
  | nil =>
    intro v hw _
    exact ⟨v, rfl, hw, rfl, by simp⟩
  | cons c rest ih =>
    intro v hw hfirst
    obtain ⟨mv, x⟩ := c
    obtain ⟨hw1, hw2⟩ := hw
    have hstep : ∃ v1, (if mv then v.PushBackMove x else v.PushBack x) = .ok v1 ∧
        v1.WellFormed ∧ v1.capacity_ ≠ 0 ∧ v1.size_ = v.size_ + 1 ∧
        v1.live = v.live ++ [x] := by
      by_cases hlt : v.size_ < v.capacity_
      · refine ⟨_, PushBack_in_place v x mv hlt hw2, ?_, ?_, rfl, ?_⟩
        · refine ⟨by simp only; omega, ?_⟩
          simpa [allocated, slots_some] using hw2
        · simp only
          omega
        · have h3 : v.size_ < (slots v.items_).length := by
            unfold allocated at hw2
            omega
          show List.take (v.size_ + 1) ((slots v.items_).set v.size_ x) = _
          rw [take_set_succ _ _ _ h3]
          rfl
      · have h4 : mv = true ∨ v.capacity_ ≠ 0 := by
          cases hfirst with
          | inl h => exact Or.inr h
          | inr h => exact Or.inl (h (mv, x) (by simp))
        obtain ⟨v1, hv1, hs, hc, ha, hl⟩ :=
          PushBack_realloc v x mv hlt (by omega) hw1 h4
        refine ⟨v1, hv1, ⟨?_, ?_⟩, ?_, hs, hl⟩
        · rw [hs, hc]
          have : v.size_ = v.capacity_ := by omega
          omega
        · rw [ha]
        · rw [hc]
          omega
    obtain ⟨v1, hv1, hwf1, hc1, hs1, hl1⟩ := hstep
    obtain ⟨w, hw, hwf, hs, hl⟩ := ih v1 hwf1 (Or.inl hc1)
    refine ⟨w, ?_, hwf, ?_, ?_⟩
    · simp only [push_all, hv1]
      exact hw
    · rw [hs, hs1, List.length_cons]
      omega
    · rw [hl, hl1]
      simp

end SimpleVector

/-- A fresh block of exactly `s` slots filled from the first `s` slots of `S`. -/
theorem overwrite_whole (S R : List α) (s : Nat) (hs : s ≤ S.length) (hR : R.length = s) :
    overwrite R 0 (slice S 0 s) = S.take s := by
  have l0 : (slice S 0 s).length = s := by rw [length_slice _ _ _ hs]; omega
  apply List.ext_getElem?
  intro j
  rw [getElem?_overwrite _ _ _ _ (by rw [l0, hR]; omega), l0, getElem?_slice,
    List.getElem?_take]
  by_cases h : j < s
  · simp [h]
  · simp only [h, if_false, Nat.not_lt_zero, Nat.zero_add]
    exact List.getElem?_eq_none (by omega)

namespace SimpleVector

theorem slots_begin_ptr (v : SimpleVector α) :
    slots v.begin_ptr = if v.size_ = 0 then [] else slots v.items_ := by
  unfold begin_ptr
  split <;> rfl

theorem take_slots_begin_ptr (v : SimpleVector α) :
    (slots v.begin_ptr).take v.size_ = v.live := by
  rw [slots_begin_ptr]
  unfold live
  split
  · rename_i h
    simp [h]
  · rfl

theorem length_slots_begin_ptr (v : SimpleVector α) (h : v.Live) :
    v.size_ ≤ (slots v.begin_ptr).length := by
  rw [slots_begin_ptr]
  split
  · omega
  · exact h

/-- The copy constructor on a source whose live indices address allocated slots. -/
theorem copy_ok [Elem α] (other : SimpleVector α) (h : other.Live) :
    ∃ w, copy other = .ok w ∧ w.size_ = other.size_ ∧ w.capacity_ = other.capacity_ ∧
      w.items_ = some other.live := by
  have hlen := length_slots_begin_ptr other h
  have s1 := std_copy_ok other.begin_ptr (new_array other.size_) 0 other.size_ 0
    (by omega) hlen (by rw [slots_new_array, List.length_replicate]; omega)
  simp only [new_array, Option.map_some'] at s1
  rw [overwrite_whole _ _ _ hlen (List.length_replicate _ _), take_slots_begin_ptr] at s1
  refine ⟨⟨some other.live, other.size_, other.capacity_⟩, ?_, rfl, rfl, rfl⟩
  simp only [copy, new_array, s1, bind, Except.bind, pure, Except.pure]

theorem length_live (v : SimpleVector α) (h : v.Live) : v.live.length = v.size_ := by
  unfold Live allocated at h
  simp only [live, List.length_take]
  omega

end SimpleVector

theorem overwrite_full (R X : List α) (h : X.length = R.length) : overwrite R 0 X = X := by
  simp [overwrite, h]

namespace SimpleVector

theorem std_fill_new_array [Elem α] (n : Nat) (value : α) :
    std_fill (new_array n) 0 n value = .ok (some (List.replicate n value)) := by
  have hc : 0 ≤ n ∧ n ≤ (slots (new_array n : Ptr α)).length := by
    rw [slots_new_array, List.length_replicate]
    exact ⟨Nat.zero_le _, le_refl _⟩
  unfold std_fill
  rw [if_pos hc]
  simp only [new_array, Option.map_some', Nat.sub_zero]
  rw [overwrite_full _ _ (by simp)]

theorem ofSizeValue_ok [Elem α] (n : Nat) (value : α) :
    ofSizeValue n value = .ok ⟨some (List.replicate n value), n, n⟩ := by
  simp only [ofSizeValue, std_fill_new_array, bind, Except.bind, pure, Except.pure]

theorem ofSize_ok [Elem α] (n : Nat) :
    ofSize n = .ok (⟨if n = 0 then none else some (List.replicate n Elem.dflt), n, n⟩ :
      SimpleVector α) := by
  by_cases h0 : n = 0
  · subst h0
    simp [ofSize, std_fill, slots_none, bind, Except.bind, pure, Except.pure]
  · simp only [ofSize, h0, if_false, std_fill_new_array, bind, Except.bind, pure, Except.pure]

theorem ofList_ok [Elem α] (init : List α) :
    ofList init = .ok ⟨some init, init.length, init.length⟩ := by
  have s1 := std_copy_ok (some init) (new_array init.length) 0 init.length 0
    (Nat.zero_le _) (by rw [slots_some]) (by rw [slots_new_array, List.length_replicate]; omega)
  simp only [new_array, Option.map_some', slots_some] at s1
  rw [overwrite_whole _ _ _ (le_refl _) (List.length_replicate _ _), List.take_length] at s1
  simp only [ofList, new_array, s1, bind, Except.bind, pure, Except.pure]

end SimpleVector

/-! ### Faults of the primitives -/

theorem bind_eq_error {β γ : Type} (x : Except Fault β) (f : β → Except Fault γ) (e : Fault)
    (h : (x >>= f) = .error e) : x = .error e ∨ ∃ b, x = .ok b ∧ f b = .error e := by
  cases x with
  | error e1 =>
    left
    simpa [bind, Except.bind] using h
  | ok b => exact Or.inr ⟨b, rfl, h⟩

theorem load_fault (p : Ptr α) (i : Nat) (e : Fault) (h : load p i = .error e) :
    e = .undefined := by
  unfold load at h
  split at h
  · exact Except.noConfusion h
  · exact (Except.error.inj h).symm

theorem Ref.read_fault (r : Ref α) (p : Ptr α) (e : Fault) (h : r.read p = .error e) :
    e = .undefined := by
  cases r with
  | outside x => exact Except.noConfusion h
  | slot j => exact load_fault p j e h

theorem store_fault (p : Ptr α) (i : Nat) (x : α) (e : Fault) (h : store p i x = .error e) :
    e = .undefined := by
  unfold store at h
  split at h
  · exact (Except.error.inj h).symm
  · split at h
    · exact Except.noConfusion h
    · exact (Except.error.inj h).symm

theorem std_copy_fault (src dst : Ptr α) (first last d_first : Nat) (e : Fault)
    (h : std_copy src first last dst d_first = .error e) : e = .undefined := by
  unfold std_copy at h
  split at h
  · exact Except.noConfusion h
  · exact (Except.error.inj h).symm

theorem std_move_fault [Elem α] (src dst : Ptr α) (first last d_first : Nat) (e : Fault)
    (h : std_move src first last dst d_first = .error e) : e = .undefined := by
  unfold std_move at h
  split at h
  · exact Except.noConfusion h
  · exact (Except.error.inj h).symm

theorem std_move_left_fault [Elem α] (p : Ptr α) (first last d_first : Nat) (e : Fault)
    (h : std_move_left p first last d_first = .error e) : e = .undefined := by
  unfold std_move_left at h
  split at h
  · exact Except.noConfusion h
  · exact (Except.error.inj h).symm

theorem std_copy_backward_fault (p : Ptr α) (first last d_last : Nat) (e : Fault)
    (h : std_copy_backward p first last d_last = .error e) : e = .undefined := by
  unfold std_copy_backward at h
  split at h
  · exact Except.noConfusion h
  · exact (Except.error.inj h).symm

theorem std_move_backward_fault [Elem α] (p : Ptr α) (first last d_last : Nat) (e : Fault)
    (h : std_move_backward p first last d_last = .error e) : e = .undefined := by
  unfold std_move_backward at h
  split at h
  · exact Except.noConfusion h
  · exact (Except.error.inj h).symm

namespace SimpleVector

theorem pos_check_true (v : SimpleVector α) (pos : Int) : v.pos_check pos = true := by
  simp only [pos_check, begin_, end_, Bool.or_eq_true, decide_eq_true_eq]
  omega

theorem Insert_fault [Elem α] (v : SimpleVector α) (pos : Int) (x : Ref α) (e : Fault)
    (h : v.Insert pos x = .error e) : e = .undefined := by
  unfold Insert at h
  simp only [pos_check_true, Bool.not_true, Bool.false_eq_true, if_false,
    not_true_eq_false] at h
  split at h
  · rcases bind_eq_error _ _ _ h with h1 | ⟨q1, _, h1⟩
    · exact std_copy_fault _ _ _ _ _ _ h1
    · rcases bind_eq_error _ _ _ h1 with hr | ⟨y, _, h1'⟩
      · exact Ref.read_fault _ _ _ hr
      · rcases bind_eq_error _ _ _ h1' with h2 | ⟨q2, _, h2⟩
        · exact store_fault _ _ _ _ h2
        · rcases bind_eq_error _ _ _ h2 with h3 | ⟨q3, _, h3⟩
          · exact std_copy_fault _ _ _ _ _ _ h3
          · exact Except.noConfusion h3
  · rcases bind_eq_error _ _ _ h with h1 | ⟨q1, _, h1⟩
    · exact std_copy_backward_fault _ _ _ _ _ h1
    · rcases bind_eq_error _ _ _ h1 with hr | ⟨y, _, h1'⟩
      · exact Ref.read_fault _ _ _ hr
      · rcases bind_eq_error _ _ _ h1' with h2 | ⟨q2, _, h2⟩
        · exact store_fault _ _ _ _ h2
        · exact Except.noConfusion h2

theorem InsertMove_fault [Elem α] (v : SimpleVector α) (pos : Int) (x : α) (e : Fault)
    (h : v.InsertMove pos x = .error e) : e = .undefined := by
  unfold InsertMove at h
  simp only [pos_check_true, Bool.not_true, Bool.false_eq_true, if_false,
    not_true_eq_false] at h
  split at h
  · rcases bind_eq_error _ _ _ h with h1 | ⟨q1, _, h1⟩
    · exact std_move_fault _ _ _ _ _ _ h1
    · rcases bind_eq_error _ _ _ h1 with h2 | ⟨q2, _, h2⟩
      · exact store_fault _ _ _ _ h2
      · rcases bind_eq_error _ _ _ h2 with h3 | ⟨q3, _, h3⟩
        · exact std_move_fault _ _ _ _ _ _ h3
        · exact Except.noConfusion h3
  · rcases bind_eq_error _ _ _ h with h1 | ⟨q1, _, h1⟩
    · exact std_move_backward_fault _ _ _ _ _ h1
    · rcases bind_eq_error _ _ _ h1 with h2 | ⟨q2, _, h2⟩
      · exact store_fault _ _ _ _ h2
      · exact Except.noConfusion h2

theorem Erase_fault [Elem α] (v : SimpleVector α) (pos : Int) (e : Fault)
    (h : v.Erase pos = .error e) : e = .undefined := by
  unfold Erase at h
  simp only [pos_check_true, Bool.not_true, Bool.false_eq_true, if_false,
    not_true_eq_false] at h
  rcases bind_eq_error _ _ _ h with h1 | ⟨q1, _, h1⟩
  · exact std_move_left_fault _ _ _ _ _ h1
  · exact Except.noConfusion h1

end SimpleVector

theorem slice_succ (S : List α) (first n : Nat) (h : first + (n + 1) ≤ S.length) :
    slice S first (first + (n + 1))
      = S[first] :: slice S (first + 1) (first + 1 + n) := by
  have e1 : first + (n + 1) - first = n + 1 := by omega
  have e2 : first + 1 + n - (first + 1) = n := by omega
  have hlt : first < S.length := by omega
  simp only [slice, e1, e2]
  rw [List.drop_eq_getElem_cons hlt, List.take_succ_cons]

theorem slice_zero (S : List α) (s : Nat) : slice S 0 s = S.take s := by
  simp [slice]

theorem copy_loop_ok (n : Nat) :
    ∀ (src dst : Ptr α) (first : Nat), first + n ≤ (slots src).length →
      first + n ≤ (slots dst).length →
      ∃ q, SimpleVector.copy_loop src dst first n = .ok q ∧
        slots q = overwrite (slots dst) first (slice (slots src) first (first + n)) := by
  induction n with
  | zero =>
    intro src dst first _ _
    exact ⟨dst, rfl, by simp [overwrite, slice]⟩
  | succ n ih =>
    intro src dst first h1 h2
    have hl := load_ok src first (by omega)
    have hs := store_ok dst first ((slots src)[first]) (by omega)
    obtain ⟨q, hq, hsl⟩ := ih src (some ((slots dst).set first ((slots src)[first]))) (first + 1)
      (by omega) (by rw [slots_some, List.length_set]; omega)
    refine ⟨q, ?_, ?_⟩
    · simp only [SimpleVector.copy_loop, hl, hs]
      exact hq
    · have l1 : (slice (slots src) (first + 1) (first + 1 + n)).length = n := by
        rw [length_slice _ _ _ (by omega)]; omega
      rw [hsl, slots_some, slice_succ _ _ _ h1]
      apply List.ext_getElem?
      intro j
      rw [getElem?_overwrite _ _ _ _ (by rw [List.length_set, l1]; omega),
        getElem?_overwrite _ _ _ _ (by rw [List.length_cons, l1]; omega),
        List.getElem?_set, l1, List.length_cons, l1]
      by_cases h3 : j < first
      · have h4 : j < first + 1 := by omega
        have h5 : first ≠ j := by omega
        simp [h3, h4, h5]
      · by_cases h4 : j = first
        · subst h4
          have h5 : j < (slots dst).length := by omega
          simp [h5]
        · have h5 : ¬ j < first + 1 := by omega
          have h6 : first ≠ j := by omega
          obtain ⟨k, hk⟩ : ∃ k, j - first = k + 1 := ⟨j - first - 1, by omega⟩
          have h7 : j - (first + 1) = k := by omega
          by_cases h8 : j < first + 1 + n
          · have h9 : j < first + (n + 1) := by omega
            simp [h3, h5, h8, h9, hk, h7]
          · have h9 : ¬ j < first + (n + 1) := by omega
            simp [h3, h5, h6, h8, h9]

namespace SimpleVector

/-- The member function `Reserve` with a capacity above the current one. -/
theorem Reserve_grow [Elem α] (v : SimpleVector α) (r : Nat) (hl : v.Live)
    (hs : v.size_ ≤ r) (hr : v.capacity_ < r) :
    ∃ w, v.Reserve r = .ok w ∧ w.size_ = v.size_ ∧ w.capacity_ = r ∧ w.allocated = r ∧
      w.live = v.live := by
  unfold Live allocated at hl
  obtain ⟨q, hq, hsl⟩ := copy_loop_ok v.size_ v.items_ (new_array r) 0 (by omega)
    (by rw [slots_new_array, List.length_replicate]; omega)
  have l0 : (slice (slots v.items_) 0 v.size_).length = v.size_ := by
    rw [length_slice _ _ _ hl]; omega
  have hfit : 0 + (slice (slots v.items_) 0 v.size_).length
      ≤ (List.replicate r (Elem.indet : α)).length := by
    rw [l0, List.length_replicate]; omega
  simp only [Nat.zero_add, slots_new_array] at hsl
  refine ⟨⟨q, v.size_, r⟩, ?_, rfl, rfl, ?_, ?_⟩
  · have hgt : r > v.capacity_ := hr
    simp only [Reserve, hgt, if_true, hq, bind, Except.bind, pure, Except.pure]
  · simp only [allocated, hsl]
    rw [length_overwrite _ _ _ hfit, List.length_replicate]
  · simp only [live, hsl]
    apply List.ext_getElem?
    intro j
    rw [List.getElem?_take, List.getElem?_take, getElem?_overwrite _ _ _ _ hfit, l0,
      getElem?_slice]
    by_cases h : j < v.size_
    · simp [h]
    · simp [h]

/-- The capacity and the size `Reserve` leaves behind, whenever it returns. -/
theorem Reserve_capacity [Elem α] (v w : SimpleVector α) (r : Nat) (h : v.Reserve r = .ok w) :
    w.capacity_ = max v.capacity_ r ∧ w.size_ = v.size_ := by
  unfold Reserve at h
  split at h
  · rename_i hgt
    obtain ⟨q, _, hw⟩ := bind_eq_ok _ _ _ h
    simp only [pure, Except.pure, Except.ok.injEq] at hw
    subst hw
    exact ⟨by simp only; omega, rfl⟩
  · rename_i hle
    simp only [pure, Except.pure, Except.ok.injEq] at h
    subst h
    exact ⟨by omega, rfl⟩

end SimpleVector

theorem beq_false_of_length_ne [BEq α] :
    ∀ (l1 l2 : List α), l1.length ≠ l2.length → (l1 == l2) = false
  | [], [] => fun h => absurd rfl h
  | [], _ :: _ => fun _ => rfl
  | _ :: _, [] => fun _ => rfl
  | x :: xs, y :: ys => fun h => by
    have ih := beq_false_of_length_ne xs ys (by simpa using h)
    rw [List.cons_beq_cons, ih, Bool.and_false]

theorem std_equal_ok [BEq α] (n : Nat) :
    ∀ (p1 p2 : Ptr α) (first1 first2 : Nat), first1 + n ≤ (slots p1).length →
      first2 + n ≤ (slots p2).length →
      std_equal p1 first1 p2 first2 n
        = .ok (slice (slots p1) first1 (first1 + n) == slice (slots p2) first2 (first2 + n)) := by
  induction n with
  | zero =>
    intro p1 p2 first1 first2 _ _
    simp [std_equal, slice]
  | succ n ih =>
    intro p1 p2 first1 first2 h1 h2
    have hl1 := load_ok p1 first1 (by omega)
    have hl2 := load_ok p2 first2 (by omega)
    rw [slice_succ _ _ _ h1, slice_succ _ _ _ h2, List.cons_beq_cons]
    simp only [std_equal, hl1, hl2]
    by_cases hxy : ((slots p1)[first1] == (slots p2)[first2]) = true
    · rw [if_pos hxy, ih p1 p2 (first1 + 1) (first2 + 1) (by omega) (by omega), hxy,
        Bool.true_and]
    · rw [if_neg hxy]
      simp only [Bool.not_eq_true] at hxy
      rw [hxy, Bool.false_and]

theorem std_lexicographical_compare_ok [LT α] [∀ a b : α, Decidable (a < b)] (n1 : Nat) :
    ∀ (n2 : Nat) (p1 p2 : Ptr α) (first1 first2 : Nat), first1 + n1 ≤ (slots p1).length →
      first2 + n2 ≤ (slots p2).length →
      std_lexicographical_compare p1 first1 p2 first2 n1 n2
        = .ok (lex_less (slice (slots p1) first1 (first1 + n1))
            (slice (slots p2) first2 (first2 + n2))) := by
  induction n1 with
  | zero =>
    intro n2 p1 p2 first1 first2 _ h2
    cases n2 with
    | zero => simp [std_lexicographical_compare, slice, lex_less]
    | succ n2 =>
      rw [slice_succ _ _ _ h2]
      simp [std_lexicographical_compare, slice, lex_less]
  | succ n1 ih =>
    intro n2 p1 p2 first1 first2 h1 h2
    cases n2 with
    | zero =>
      rw [slice_succ _ _ _ h1]
      simp [std_lexicographical_compare, slice, lex_less]
    | succ n2 =>
      have hl1 := load_ok p1 first1 (by omega)
      have hl2 := load_ok p2 first2 (by omega)
      rw [slice_succ _ _ _ h1, slice_succ _ _ _ h2]
      simp only [std_lexicographical_compare, hl1, hl2, lex_less]
      by_cases hxy : (slots p1)[first1] < (slots p2)[first2]
      · simp only [hxy, if_true]
      · by_cases hyx : (slots p2)[first2] < (slots p1)[first1]
        · simp only [hxy, hyx, if_true, if_false]
        · simp only [hxy, hyx, if_false]
          exact ih n2 p1 p2 (first1 + 1) (first2 + 1) (by omega) (by omega)

namespace SimpleVector

theorem slice_begin_ptr (v : SimpleVector α) :
    slice (slots v.begin_ptr) 0 (0 + v.size_) = v.live := by
  rw [Nat.zero_add, slice_zero, take_slots_begin_ptr]

/-- The free function `operator==` on two vectors whose live indices address allocated
slots: it compares the lists of live elements. -/
theorem operator_eq_ok [BEq α] (a b : SimpleVector α) (ha : a.Live) (hb : b.Live) :
    operator_eq a b = .ok (a.live == b.live) := by
  by_cases hs : a.size_ = b.size_
  · have hn : ¬ a.GetSize ≠ b.GetSize := by simpa [GetSize] using hs
    have h1 := length_slots_begin_ptr a ha
    have h2 := length_slots_begin_ptr b hb
    simp only [operator_eq, hn, if_false]
    rw [std_equal_ok a.size_ a.begin_ptr b.begin_ptr 0 0 (by omega) (by omega),
      slice_begin_ptr, hs, slice_begin_ptr]
  · have hn : a.GetSize ≠ b.GetSize := by simpa [GetSize] using hs
    rw [operator_eq, if_pos hn]
    rw [beq_false_of_length_ne _ _ (by rw [length_live a ha, length_live b hb]; exact hs)]

/-- The free function `operator<` on two vectors whose live indices address allocated
slots: it compares the lists of live elements. -/
theorem operator_lt_ok [LT α] [∀ a b : α, Decidable (a < b)] (a b : SimpleVector α)
    (ha : a.Live) (hb : b.Live) : operator_lt a b = .ok (lex_less a.live b.live) := by
  have h1 := length_slots_begin_ptr a ha
  have h2 := length_slots_begin_ptr b hb
  simp only [operator_lt]
  rw [std_lexicographical_compare_ok a.size_ b.size_ a.begin_ptr b.begin_ptr 0 0 (by omega)
    (by omega), slice_begin_ptr, slice_begin_ptr]

end SimpleVector

/-- The comparison `lex_less` on a linear order: the first list is a proper initial
segment of the second, or the lists agree up to an index at which the first has the
smaller element. -/
theorem lex_less_iff [LinearOrder α] :
    ∀ (l1 l2 : List α), lex_less l1 l2 = true ↔
      (∃ t, t ≠ [] ∧ l2 = l1 ++ t) ∨
      (∃ k x y, l1[k]? = some x ∧ l2[k]? = some y ∧ l1.take k = l2.take k ∧ x < y)
  | [], [] => by
    simp [lex_less]
  | [], y :: ys => by
    simp [lex_less]
  | x :: xs, [] => by
    simp [lex_less]
  | x :: xs, y :: ys => by
    have ih := lex_less_iff xs ys
    rcases lt_trichotomy x y with hlt | heq | hgt
    · simp only [lex_less, hlt, if_true, true_iff]
      exact Or.inr ⟨0, x, y, List.getElem?_cons_zero, List.getElem?_cons_zero, rfl, hlt⟩
    · subst heq
      simp only [lex_less, lt_irrefl, if_false, ih]
      constructor
      · rintro (⟨t, ht, he⟩ | ⟨k, a, b, h1, h2, h3, h4⟩)
        · exact Or.inl ⟨t, ht, by rw [he]; rfl⟩
        · exact Or.inr ⟨k + 1, a, b, by simpa using h1, by simpa using h2,
            by simp [List.take_succ_cons, h3], h4⟩
      · rintro (⟨t, ht, he⟩ | ⟨k, a, b, h1, h2, h3, h4⟩)
        · refine Or.inl ⟨t, ht, ?_⟩
          simpa using he
        · cases k with
          | zero =>
            simp only [List.getElem?_cons_zero, Option.some.injEq] at h1 h2
            subst h1
            subst h2
            exact absurd h4 (lt_irrefl _)
          | succ k =>
            refine Or.inr ⟨k, a, b, by simpa using h1, by simpa using h2, ?_, h4⟩
            simpa [List.take_succ_cons] using h3
    · have hn : ¬ x < y := not_lt_of_gt hgt
      simp only [lex_less, hn, hgt, if_true, if_false, Bool.false_eq_true, false_iff]
      rintro (⟨t, _, he⟩ | ⟨k, a, b, h1, h2, h3, h4⟩)
      · simp only [List.cons_append, List.cons.injEq] at he
        exact absurd hgt (by rw [he.1]; exact lt_irrefl _)
      · cases k with
        | zero =>
          simp only [List.getElem?_cons_zero, Option.some.injEq] at h1 h2
          subst h1
          subst h2
          exact hn h4
        | succ k =>
          simp only [List.take_succ_cons, List.cons.injEq] at h3
          exact absurd hgt (by rw [h3.1]; exact lt_irrefl _)

theorem lex_less_nil_right [LT α] [∀ a b : α, Decidable (a < b)] (l : List α) :
    lex_less l [] = false := by
  cases l <;> rfl

theorem lex_less_nil_left [LT α] [∀ a b : α, Decidable (a < b)] (l : List α) (h : l ≠ []) :
    lex_less [] l = true := by
  cases l with
  | nil => exact absurd rfl h
  | cons y ys => rfl

namespace SimpleVector

theorem live_eq_nil (v : SimpleVector α) (h : v.size_ = 0) : v.live = [] := by
  simp [live, h]

theorem live_ne_nil (v : SimpleVector α) (hl : v.Live) (h : v.size_ ≠ 0) : v.live ≠ [] := by
  intro hn
  have := length_live v hl
  rw [hn, List.length_nil] at this
  exact h this.symm

/-- One `PushBack` (either overload) on the vector the list constructor builds. -/
theorem PushBack_after_ofList [Elem α] (init : List α) (x : α) (mv : Bool) :
    ∃ w, (if mv then (⟨some init, init.length, init.length⟩ : SimpleVector α).PushBackMove x
        else (⟨some init, init.length, init.length⟩ : SimpleVector α).PushBack x) = .ok w ∧
      w.size_ = init.length + 1 := by
  by_cases h : mv = true ∨ init.length ≠ 0
  · obtain ⟨w, hw, hs, _⟩ := PushBack_realloc
      (⟨some init, init.length, init.length⟩ : SimpleVector α) x mv (lt_irrefl _)
      (by simp [allocated, slots_some]) (le_refl _) h
    exact ⟨w, hw, hs⟩
  · have hmv : mv = false := by
      cases mv with
      | true => exact absurd (Or.inl rfl) h
      | false => rfl
    have hnil : init = [] := by
      apply List.eq_nil_of_length_eq_zero
      by_contra hc
      exact h (Or.inr hc)
    subst hmv
    subst hnil
    refine ⟨⟨some [x], 1, 0⟩, ?_, rfl⟩
    simp [PushBack, std_copy, store, new_array, slots, overwrite, slice, bind, Except.bind,
      pure, Except.pure]

end SimpleVector

theorem map_range_id (f : α → α) (hf : ∀ x, f x = x) (blk : List α) (first last : Nat)
    (h1 : first ≤ last) (h2 : last ≤ blk.length) : map_range f blk first last = blk := by
  apply List.ext_getElem?
  intro j
  rw [getElem?_map_range _ _ _ _ _ h1 h2]
  split
  · cases blk[j]? with
    | none => rfl
    | some x => simp [hf]
  · rfl

theorem std_move_backward_eq_copy [Elem α] (hm : ∀ x : α, Elem.moved x = x) (p : Ptr α)
    (first last d_last : Nat) :
    std_move_backward p first last d_last = std_copy_backward p first last d_last := by
  unfold std_move_backward std_copy_backward
  split
  · rename_i hc
    obtain ⟨h1, h2, h3⟩ := hc
    cases p with
    | none => rfl
    | some blk =>
      rw [slots_some] at h3
      simp only [Option.map_some']
      rw [map_range_id _ hm _ _ _ h1 (by omega)]
  · rfl

/-- The block built by the reallocating branch of `Insert(ConstIterator, Type&&)` is the
one built by the copying overload. -/
theorem insert_move_block (S R : List α) (s i : Nat) (x : α)
    (hs : s ≤ S.length) (hi : i ≤ s) (hN : s + 1 ≤ R.length) :
    overwrite ((overwrite R 0 (slice S 0 s)).set i x) (i + 1) (slice S i s)
      = overwrite ((overwrite R 0 (slice S 0 i)).set i x) (i + 1) (slice S i s) := by
  have l0 : (slice S 0 s).length = s := by rw [length_slice _ _ _ hs]; omega
  have l0i : (slice S 0 i).length = i := by rw [length_slice _ _ _ (by omega)]; omega
  have l1 : (slice S i s).length = s - i := length_slice _ _ _ hs
  have b1 : (overwrite R 0 (slice S 0 s)).length = R.length :=
    length_overwrite _ _ _ (by rw [l0]; omega)
  have b1i : (overwrite R 0 (slice S 0 i)).length = R.length :=
    length_overwrite _ _ _ (by rw [l0i]; omega)
  apply List.ext_getElem?
  intro j
  rw [getElem?_overwrite _ _ _ _ (by rw [List.length_set, b1, l1]; omega),
    getElem?_overwrite _ _ _ _ (by rw [List.length_set, b1i, l1]; omega),
    List.getElem?_set, List.getElem?_set,
    getElem?_overwrite _ _ _ _ (by rw [l0]; omega),
    getElem?_overwrite _ _ _ _ (by rw [l0i]; omega), l0, l0i, l1, b1, b1i,
    getElem?_slice, getElem?_slice]
  by_cases h1 : j < i
  · have h2 : j < i + 1 := by omega
    have h3 : i ≠ j := by omega
    have h4 : j < s := by omega
    simp [h1, h2, h3, h4, getElem?_slice]
  · by_cases h2 : j = i
    · subst h2
      simp
    · have h3 : ¬ j < i + 1 := by omega
      by_cases h4 : j < i + 1 + (s - i)
      · simp [h3, h4]
      · have h5 : ¬ j < s := by omega
        have h6 : i ≠ j := by omega
        simp [h1, h3, h4, h5, h6]

namespace SimpleVector

/-- On a well-formed vector of values that moving leaves intact, the two overloads of
`Insert` return the same result at an index `i <= size`. -/
theorem InsertMove_eq_Insert [Elem α] (hm : ∀ x : α, Elem.moved x = x) (v : SimpleVector α)
    (i : Nat) (x : α) (hw : v.WellFormed) (hi : i ≤ v.size_) :
    v.InsertMove (i : Int) x = v.Insert (i : Int) (.outside x) := by
  obtain ⟨items, size, cap⟩ := v
  obtain ⟨h1, h2⟩ := hw
  simp only [allocated] at h1 h2 hi
  have hl : size ≤ (slots items).length := by omega
  by_cases hc : size = cap
  · subst hc
    have hN : size + 1 ≤ (if size = 0 then 1 else size * 2) := by
      split <;> omega
    generalize hNd : (if size = 0 then 1 else size * 2) = N at hN
    have hR : (List.replicate N (Elem.indet : α)).length = N := List.length_replicate _ _
    have l0 : (slice (slots items) 0 size).length = size := by
      rw [length_slice _ _ _ hl]; omega
    have l0i : (slice (slots items) 0 i).length = i := by
      rw [length_slice _ _ _ (by omega)]; omega
    have b1 : (overwrite (List.replicate N (Elem.indet : α)) 0
        (slice (slots items) 0 size)).length = N := by
      rw [length_overwrite _ _ _ (by rw [l0, hR]; omega), hR]
    have b1i : (overwrite (List.replicate N (Elem.indet : α)) 0
        (slice (slots items) 0 i)).length = N := by
      rw [length_overwrite _ _ _ (by rw [l0i, hR]; omega), hR]
    have hsrc : slots (items.map fun blk => map_range (Elem.moved : α → α) blk 0 size)
        = slots items := by
      rw [slots_map_map_range, map_range_id _ hm _ _ _ (Nat.zero_le _) hl]
    have c1 := std_copy_ok items (new_array N) 0 i 0 (by omega) (by omega)
      (by rw [slots_new_array, hR]; omega)
    have c2 := store_ok (some (overwrite (List.replicate N (Elem.indet : α)) 0
      (slice (slots items) 0 i))) i x (by rw [slots_some, b1i]; omega)
    have c3 := std_copy_ok items (some ((overwrite (List.replicate N (Elem.indet : α)) 0
      (slice (slots items) 0 i)).set i x)) i size (i + 1) hi hl
      (by rw [slots_some, List.length_set, b1i]; omega)
    have m1 := std_move_ok items (new_array N) 0 size 0 (by omega) hl
      (by rw [slots_new_array, hR]; omega)
    have m2 := store_ok (some (overwrite (List.replicate N (Elem.indet : α)) 0
      (slice (slots items) 0 size))) i x (by rw [slots_some, b1]; omega)
    have m3 := std_move_ok (items.map fun blk => map_range (Elem.moved : α → α) blk 0 size)
      (some ((overwrite (List.replicate N (Elem.indet : α)) 0
        (slice (slots items) 0 size)).set i x)) i size (i + 1) hi (by rw [hsrc]; exact hl)
      (by rw [slots_some, List.length_set, b1]; omega)
    simp only [new_array, Option.map_some'] at c1 m1
    simp only [slots_some] at c2 m2
    simp only [Option.map_some'] at c3
    simp only [Option.map_some', hsrc] at m3
    rw [insert_move_block _ _ _ _ _ hl hi (by rw [hR]; exact hN)] at m3
    simp only [Insert, InsertMove, Ref.read, pos_check_natCast, index_of_natCast, hNd, if_true,
      new_array, c1, c2, c3, m1, m2, m3, bind, Except.bind, pure, Except.pure, Bool.not_true,
      Bool.false_eq_true, if_false, not_true_eq_false]
  · simp only [Insert, InsertMove, Ref.read, hc, if_false, std_move_backward_eq_copy hm, bind,
      Except.bind, pure, Except.pure]

end SimpleVector

theorem std_move_backward_returns [Elem α] (p q : Ptr α) (first last d_last : Nat)
    (h : std_move_backward p first last d_last = .ok q) :
    first ≤ last ∧ last < d_last ∧ d_last ≤ (slots p).length ∧
      (slots q).length = (slots p).length := by
  unfold std_move_backward at h
  split at h
  · rename_i hc
    obtain ⟨h1, h2, h3⟩ := hc
    simp only [Except.ok.injEq] at h
    subst h
    refine ⟨h1, h2, h3, ?_⟩
    cases p with
    | none => rfl
    | some blk =>
      simp only [slots_some] at h3
      simp only [Option.map_some', slots_some]
      rw [length_overwrite _ _ _ (by
        rw [length_slice _ _ _ (by omega), length_map_range _ _ _ _ h1 (by omega)]; omega),
        length_map_range _ _ _ _ h1 (by omega)]
  · exact Except.noConfusion h

namespace SimpleVector

theorem Live_copy [Elem α] (other w : SimpleVector α) (h : copy other = .ok w) : w.Live := by
  unfold copy at h
  obtain ⟨q, hq, hw⟩ := bind_eq_ok _ _ _ h
  simp only [pure, Except.pure, Except.ok.injEq] at hw
  subst hw
  obtain ⟨_, _, _, h4⟩ := std_copy_returns _ _ _ _ _ _ hq
  simp only [Live, allocated, h4, slots_new_array, List.length_replicate]
  exact le_refl _

theorem Live_move (other : SimpleVector α) (h : other.Live) :
    (move other).1.Live ∧ (move other).2.Live :=
  ⟨h, by simp [Live, move]⟩

theorem Live_swap (self other : SimpleVector α) (h1 : self.Live) (h2 : other.Live) :
    (self.swap other).1.Live ∧ (self.swap other).2.Live :=
  ⟨h2, h1⟩

theorem Live_ofSize [Elem α] (n : Nat) (w : SimpleVector α) (h : ofSize n = .ok w) :
    w.Live := by
  rw [ofSize_ok, Except.ok.injEq] at h
  subst h
  by_cases h0 : n = 0
  · simp [Live, h0]
  · simp [Live, allocated, h0, slots_some]

theorem Live_ofSizeValue [Elem α] (n : Nat) (value : α) (w : SimpleVector α)
    (h : ofSizeValue n value = .ok w) : w.Live := by
  rw [ofSizeValue_ok, Except.ok.injEq] at h
  subst h
  simp [Live, allocated, slots_some]

theorem Live_assign [Elem α] (self other w : SimpleVector α) (ne : Bool) (hs : self.Live)
    (h : assign self other ne = .ok w) : w.Live := by
  unfold assign at h
  split at h
  · split at h
    · simp only [pure, Except.pure, Except.ok.injEq] at h
      subst h
      simp [Live]
    · obtain ⟨t, ht, hw⟩ := bind_eq_ok _ _ _ h
      simp only [pure, Except.pure, Except.ok.injEq] at hw
      subst hw
      exact Live_copy other t ht
  · simp only [pure, Except.pure, Except.ok.injEq] at h
    subst h
    exact hs

theorem Live_assign_move (self other : SimpleVector α) (ne : Bool) (hs : self.Live)
    (ho : other.Live) : (assign_move self other ne).1.Live ∧ (assign_move self other ne).2.Live := by
  cases ne with
  | true => exact ⟨ho, by simp [Live, assign_move]⟩
  | false => exact ⟨hs, ho⟩

theorem Live_InsertMove [Elem α] (v w : SimpleVector α) (pos p : Int) (x : α)
    (h : v.InsertMove pos x = .ok (w, p)) : w.Live := by
  unfold InsertMove at h
  split at h
  · exact Except.noConfusion h
  · simp only at h
    split at h
    · obtain ⟨q1, hq1, h1⟩ := bind_eq_ok _ _ _ h
      obtain ⟨q2, hq2, h2⟩ := bind_eq_ok _ _ _ h1
      obtain ⟨q3, hq3, h3⟩ := bind_eq_ok _ _ _ h2
      simp only [pure, Except.pure, Except.ok.injEq, Prod.mk.injEq] at h3
      obtain ⟨hw, _⟩ := h3
      subst hw
      obtain ⟨a1, _, a3, a4⟩ := std_move_returns _ _ _ _ _ _ hq3
      simp only [Live, allocated]
      omega
    · obtain ⟨q1, hq1, h1⟩ := bind_eq_ok _ _ _ h
      obtain ⟨q2, hq2, h2⟩ := bind_eq_ok _ _ _ h1
      simp only [pure, Except.pure, Except.ok.injEq, Prod.mk.injEq] at h2
      obtain ⟨hw, _⟩ := h2
      subst hw
      obtain ⟨_, _, a3, a4⟩ := std_move_backward_returns _ _ _ _ _ hq1
      obtain ⟨_, b2⟩ := store_returns _ _ _ _ hq2
      simp only [Live, allocated]
      omega

end SimpleVector

namespace SimpleVector

/-- The copying `Insert` with an argument that is not an element of the vector: on a
well-formed vector with live elements `s` and for `i <= size` it returns the position of
index `i`; afterwards the live sequence is `s[0..i)`, then the value, then `s[i..size)`,
the size has grown by exactly 1, and index `i` holds the value. -/
theorem Insert_outside_value [Elem α] (v : SimpleVector α) (i : Nat) (value : α)
    (hw : v.WellFormed) (hi : i ≤ v.GetSize) :
    ∃ w, v.Insert (v.begin_ + i) (.outside value) = .ok (w, w.begin_ + i) ∧
      w.live = v.live.take i ++ value :: v.live.drop i ∧
      w.GetSize = v.GetSize + 1 ∧ w.At i = .ok value := by
  obtain ⟨h1, h2⟩ := hw
  obtain ⟨w, hins, hsz, hlive, hal, _⟩ :=
    Insert_ok v i value (by omega) (fun hne => by omega) hi
  refine ⟨w, ?_, hlive, hsz, ?_⟩
  · simpa [begin_] using hins
  · have hlen : i ≤ v.live.length := by
      simp only [live, List.length_take, allocated, GetSize] at *
      omega
    have hget : w.live[i]? = some value := by
      rw [hlive, getElem?_insert_form _ _ _ _ hlen]
      simp
    have hlt : i < w.GetSize := by
      simp only [GetSize] at *
      omega
    have hslot : (slots w.items_)[i]? = some value := by
      simpa [live, List.getElem?_take, show i < w.size_ from hlt] using hget
    have hn : ¬ i ≥ w.size_ := by
      simp only [GetSize] at hlt
      omega
    simp [At, hn, load, hslot]

end SimpleVector

namespace SimpleVector

/-- The copy constructor, on a source whose live indices address allocated slots, returns
a vector whose size is the source's size, whose live elements are the source's in order,
whose capacity is the source's capacity and whose block has exactly as many slots as the
source has live elements. -/
theorem copy_size_live_capacity [Elem α] (other : SimpleVector α) (h : other.Live) :
    ∃ w, copy other = .ok w ∧ w.GetSize = other.GetSize ∧ w.live = other.live ∧
      w.GetCapacity = other.GetCapacity ∧ w.allocated = other.GetSize := by
  obtain ⟨w, hw, hs, hc, hi⟩ := copy_ok other h
  refine ⟨w, hw, hs, ?_, hc, ?_⟩
  · show List.take w.size_ (slots w.items_) = other.live
    rw [hi, slots_some, hs]
    exact List.take_of_length_le (le_of_eq (length_live other h))
  · show (slots w.items_).length = other.size_
    rw [hi, slots_some]
    exact length_live other h

end SimpleVector

/-! ## The claims -/

open SimpleVector

/-- C1: two copying `PushBack` calls on a default-constructed vector do not end with
`GetSize() == 2` and both values readable through `At`.  The first call allocates one
slot and leaves `capacity_` at `0 * 2 = 0`; the second call, whichever overload it is,
allocates one slot again and writes the new element into slot 1, outside the block. -/
theorem C1_PushBack_copy_then_PushBack_faults [Elem α] (v0 v1 : α) (mv : Bool) :
    push_all ({} : SimpleVector α) [(false, v0)]
        = .ok { items_ := some [v0], size_ := 1, capacity_ := 0 } ∧
      push_all ({} : SimpleVector α) [(false, v0), (mv, v1)] = .error .undefined := by
  cases mv <;>
    simp [push_all, PushBack, PushBackMove, std_copy, std_move, store, new_array, slots,
      overwrite, slice, map_range, bind, Except.bind, pure, Except.pure]

/-- C2: `size <= capacity` does not survive `PushBack(const Type&)` on a
default-constructed vector: the call returns a vector with `GetSize() == 1` and
`GetCapacity() == 0`, because the reallocating branch executes `capacity_ *= 2` where the
overload `PushBack(Type&&)` executes `capacity_ = new_capacity`. -/
theorem C2_PushBack_copy_breaks_size_le_capacity [Elem α] (x : α) :
    ({} : SimpleVector α).WellFormed ∧
      ∃ v, PushBack ({} : SimpleVector α) x = .ok v ∧ v.GetSize = 1 ∧ v.GetCapacity = 0 ∧
        ¬ v.GetSize ≤ v.GetCapacity := by
  refine ⟨by simp [WellFormed, allocated, slots], ⟨some [x], 1, 0⟩, ?_, rfl, rfl,
    by simp [GetSize, GetCapacity]⟩
  simp [PushBack, std_copy, store, new_array, slots, overwrite, slice, bind, Except.bind,
    pure, Except.pure]

/-- C3: on the default-constructed vector, whose size equals its capacity,
`PushBack(const Type&)` leaves `GetCapacity()` at 0 and not at `max(1, 2 * 0) = 1`; the
overload `PushBack(Type&&)` leaves it at 1 on the same input. -/
theorem C3_PushBack_copy_capacity_stays_zero [Elem α] (x : α) :
    (({} : SimpleVector α).GetSize = ({} : SimpleVector α).GetCapacity) ∧
      (PushBack ({} : SimpleVector α) x).map GetCapacity = .ok 0 ∧
      (PushBackMove ({} : SimpleVector α) x).map GetCapacity
        = .ok (max 1 (2 * ({} : SimpleVector α).GetCapacity)) := by
  simp [PushBack, PushBackMove, std_copy, std_move, store, new_array, slots, overwrite, slice,
    map_range, bind, Except.bind, pure, Except.pure, GetSize, GetCapacity, Except.map]

/-- C4: a vector created with reserved capacity `n`, through the constructor
`SimpleVector(ReserveProxyObj)` or through `Reserve(n)` on a default-constructed vector,
is empty with `GetCapacity() == n`, and every sequence of at most `n` `PushBack` calls on
it (each call either overload) returns with `GetCapacity()` still equal to `n`, the size
equal to the number of calls and the pushed values as live elements; so no call among
the first `n` takes the reallocating branch. -/
theorem C4_reserved_PushBack_keeps_capacity [Elem α] (n : Nat) (calls : List (Bool × α))
    (h : calls.length ≤ n) :
    ∃ v0 : SimpleVector α, ofReserve n = .ok v0 ∧ Reserve {} n = .ok v0 ∧
      v0.GetSize = 0 ∧ v0.GetCapacity = n ∧
      ∃ w, push_all v0 calls = .ok w ∧ w.GetCapacity = n ∧ w.GetSize = calls.length ∧
        w.live = calls.map Prod.snd := by
  obtain ⟨v0, h0, hs, hc, ha, hl⟩ := @SimpleVector.Reserve_default α _ n
  obtain ⟨w, hw, hwc, hws, _, hwl⟩ := push_all_in_place calls v0 (by omega) ha
  refine ⟨v0, h0, h0, hs, hc, w, hw, ?_, ?_, ?_⟩
  · simp [GetCapacity, hwc, hc]
  · simp [GetSize, hws, hs]
  · simp [hwl, hl]

/-- Three pushes, copying and moving, into a vector of `int` created with capacity 3. -/
theorem C4_reserved_PushBack_keeps_capacity_witness :
    [(true, (1 : Int)), (false, 2), (false, 3)].length ≤ 3 ∧
    ∃ v0 : SimpleVector Int, ofReserve 3 = .ok v0 ∧ Reserve {} 3 = .ok v0 ∧
      v0.GetSize = 0 ∧ v0.GetCapacity = 3 ∧
      ∃ w, push_all v0 [(true, (1 : Int)), (false, 2), (false, 3)] = .ok w ∧
        w.GetCapacity = 3 ∧
        w.GetSize = [(true, (1 : Int)), (false, 2), (false, 3)].length ∧
        w.live = [(true, (1 : Int)), (false, 2), (false, 3)].map Prod.snd :=
  ⟨by decide, C4_reserved_PushBack_keeps_capacity 3 [(true, 1), (false, 2), (false, 3)]
    (by decide)⟩

/-- C5: `At(index)` ends with the out-of-range error exactly when `index >= GetSize()`;
for `index < GetSize()` the value it returns, if any, is the live element at that index,
and it does return one when every live index addresses an allocated slot.  `At` computes
a result from the vector and has no vector among its results, so the vector is the same
before and after the call. -/
theorem C5_At_checked (v : SimpleVector α) (index : Nat) :
    (v.At index = .error .out_of_range ↔ index ≥ v.GetSize) ∧
      (index < v.GetSize → ∀ x, v.At index = .ok x ↔ v.live[index]? = some x) ∧
      (v.Live → index < v.GetSize → ∃ x, v.At index = .ok x ∧ v.live[index]? = some x) := by
  have key : index < v.size_ → ∀ x, v.At index = .ok x ↔ v.live[index]? = some x := by
    intro hlt x
    have hn : ¬ index ≥ v.size_ := by omega
    simp only [At, hn, if_false, live, load, List.getElem?_take, hlt, if_true]
    cases (slots v.items_)[index]? <;> simp
  refine ⟨?_, key, ?_⟩
  · by_cases hi : index ≥ v.size_
    · simp [At, GetSize, hi]
    · simp only [At, GetSize, hi, if_false, iff_false, load]
      cases (slots v.items_)[index]? <;> simp
  · intro hl hlt
    have hb : index < (slots v.items_).length := by
      unfold Live allocated at hl
      unfold GetSize at hlt
      omega
    refine ⟨(slots v.items_)[index], ?_, ?_⟩
    · rw [key hlt]
      simp [live, List.getElem?_take, show index < v.size_ from hlt,
        List.getElem?_eq_getElem hb]
    · simp [live, List.getElem?_take, show index < v.size_ from hlt,
        List.getElem?_eq_getElem hb]

/-- The vector `{4, 5}` read at index 1. -/
theorem C5_At_checked_witness :
    (1 < ({ items_ := some [4, 5], size_ := 2, capacity_ := 2 } : SimpleVector Int).GetSize) ∧
    ({ items_ := some [4, 5], size_ := 2, capacity_ := 2 } : SimpleVector Int).Live ∧
    ∃ x, ({ items_ := some [4, 5], size_ := 2, capacity_ := 2 } : SimpleVector Int).At 1 = .ok x ∧
      ({ items_ := some [4, 5], size_ := 2, capacity_ := 2 } : SimpleVector Int).live[1]?
        = some x :=
  ⟨by decide, by decide,
    (C5_At_checked ({ items_ := some [4, 5], size_ := 2, capacity_ := 2 } : SimpleVector Int)
      1).2.2 (by decide) (by decide)⟩

/-- C6: the copying `Insert` does not always insert the value of its argument.  On the
well-formed vector `{1, 2, 3}` with capacity 5 (the list constructor, then `Reserve(5)`),
`Insert(begin(), v[2])` passes a reference to the element 3; the in-place branch shifts
the elements with `std::copy_backward` first and reads the argument afterwards, when slot
2 holds 2: the result is `{2, 1, 2, 3}` and not `{3, 1, 2, 3}`.  With the value 3 held
outside the vector the result is `{3, 1, 2, 3}`, and so it is in the reallocating branch
(the same call on `{1, 2, 3}` with capacity 3), which reads the argument before the old
block is touched. -/
theorem C6_Insert_copy_aliased_argument :
    (do let v ← ofList [(1 : Int), 2, 3]; v.Reserve 5)
      = .ok ⟨some [1, 2, 3, Elem.indet, Elem.indet], 3, 5⟩ ∧
    (⟨some [1, 2, 3, Elem.indet, Elem.indet], 3, 5⟩ : SimpleVector Int).WellFormed ∧
    (⟨some [1, 2, 3, Elem.indet, Elem.indet], 3, 5⟩ : SimpleVector Int).At 2 = .ok 3 ∧
    (⟨some [1, 2, 3, Elem.indet, Elem.indet], 3, 5⟩ : SimpleVector Int).Insert
        ((⟨some [1, 2, 3, Elem.indet, Elem.indet], 3, 5⟩ : SimpleVector Int).begin_ + 0)
        (.slot 2)
      = .ok (⟨some [2, 1, 2, 3, Elem.indet], 4, 5⟩, 0) ∧
    (⟨some [2, 1, 2, 3, Elem.indet], 4, 5⟩ : SimpleVector Int).live = [2, 1, 2, 3] ∧
    ¬ (⟨some [2, 1, 2, 3, Elem.indet], 4, 5⟩ : SimpleVector Int).live
      = ([1, 2, 3] : List Int).take 0 ++ 3 :: ([1, 2, 3] : List Int).drop 0 ∧
    (⟨some [1, 2, 3, Elem.indet, Elem.indet], 3, 5⟩ : SimpleVector Int).Insert 0 (.outside 3)
      = .ok (⟨some [3, 1, 2, 3, Elem.indet], 4, 5⟩, 0) ∧
    (⟨some [1, 2, 3], 3, 3⟩ : SimpleVector Int).Insert 0 (.slot 2)
      = .ok (⟨some [3, 1, 2, 3, Elem.indet, Elem.indet], 4, 6⟩, 0) :=
  ⟨rfl, by decide, rfl, rfl, rfl, by decide, rfl, rfl⟩

/-- C7: on a vector with live elements `s` (every live index addressing an allocated
slot), `Erase(begin() + i)` with `i < size` returns the position of index `i` in the
result; afterwards the live sequence is `s` without its `i`-th element, `GetSize()` has
dropped by exactly 1 and `GetCapacity()` is unchanged; the returned position is `end()`
when the erased element was the last one. -/
theorem C7_Erase [Elem α] (v : SimpleVector α) (i : Nat) (hl : v.Live) (hi : i < v.GetSize) :
    ∃ w, v.Erase (v.begin_ + i) = .ok (w, w.begin_ + i) ∧
      w.live = v.live.eraseIdx i ∧
      w.GetSize + 1 = v.GetSize ∧ w.GetCapacity = v.GetCapacity ∧
      (i + 1 = v.GetSize → w.begin_ + i = w.end_) := by
  obtain ⟨w, her, hsz, hcap, _, hlive⟩ := Erase_ok v i hl hi
  refine ⟨w, ?_, hlive, ?_, hcap, ?_⟩
  · simpa [begin_] using her
  · simp only [GetSize] at *
    omega
  · intro hlast
    simp only [GetSize, begin_, end_] at *
    omega

/-- The vector `{1, 9, 2, 3}` with `Erase` at index 0: the result is `{9, 2, 3}` with
size 3. -/
theorem C7_Erase_witness :
    (⟨some [1, 9, 2, 3], 4, 6⟩ : SimpleVector Int).Live ∧
    0 < (⟨some [1, 9, 2, 3], 4, 6⟩ : SimpleVector Int).GetSize ∧
    (∃ w, (⟨some [1, 9, 2, 3], 4, 6⟩ : SimpleVector Int).Erase
        ((⟨some [1, 9, 2, 3], 4, 6⟩ : SimpleVector Int).begin_ + (0 : Nat))
          = .ok (w, w.begin_ + (0 : Nat)) ∧
      w.live = ([1, 9, 2, 3] : List Int).eraseIdx 0 ∧
      w.GetSize + 1 = 4 ∧ w.GetCapacity = 6 ∧
      (0 + 1 = 4 → w.begin_ + (0 : Nat) = w.end_)) ∧
    ([1, 9, 2, 3] : List Int).eraseIdx 0 = [9, 2, 3] :=
  ⟨by decide, by decide,
    C7_Erase (⟨some [1, 9, 2, 3], 4, 6⟩ : SimpleVector Int) 0 (by decide) (by decide),
    by decide⟩

/-- C8: on a vector with live elements `s` (every live index addressing an allocated
slot) and `i < size`, `Erase(begin() + i)` returns a position, and `Insert` at that
position with the original value `s[i]`, which the caller holds outside the vector,
returns a vector whose size and live elements are those of `s`. -/
theorem C8_Erase_then_Insert [Elem α] (v : SimpleVector α) (i : Nat) (x : α)
    (hl : v.Live) (hi : i < v.GetSize) (hx : v.live[i]? = some x) :
    ∃ w p u q, v.Erase (v.begin_ + i) = .ok (w, p) ∧ w.Insert p (.outside x) = .ok (u, q) ∧
      u.GetSize = v.GetSize ∧ u.live = v.live := by
  obtain ⟨w, her, hsz, _, hal, hlive⟩ := Erase_ok v i hl hi
  simp only [GetSize, Live] at hl hi
  obtain ⟨u, hins, husz, hulive, _, _⟩ :=
    Insert_ok w i x (by omega) (fun _ => by omega) (by omega)
  refine ⟨w, i, u, i, ?_, hins, ?_, ?_⟩
  · simpa [begin_] using her
  · simp only [GetSize]
    omega
  · rw [hulive, hlive]
    exact eraseIdx_insert_back _ _ _ hx

/-- The vector `{1, 9, 2, 3}`: erasing the 9 at index 1 and inserting it back. -/
theorem C8_Erase_then_Insert_witness :
    (⟨some [1, 9, 2, 3], 4, 4⟩ : SimpleVector Int).Live ∧
    1 < (⟨some [1, 9, 2, 3], 4, 4⟩ : SimpleVector Int).GetSize ∧
    (⟨some [1, 9, 2, 3], 4, 4⟩ : SimpleVector Int).live[1]? = some 9 ∧
    ∃ w p u q, (⟨some [1, 9, 2, 3], 4, 4⟩ : SimpleVector Int).Erase
        ((⟨some [1, 9, 2, 3], 4, 4⟩ : SimpleVector Int).begin_ + (1 : Nat)) = .ok (w, p) ∧
      w.Insert p (.outside 9) = .ok (u, q) ∧
      u.GetSize = (⟨some [1, 9, 2, 3], 4, 4⟩ : SimpleVector Int).GetSize ∧
      u.live = [1, 9, 2, 3] :=
  ⟨by decide, by decide, by decide,
    C8_Erase_then_Insert (⟨some [1, 9, 2, 3], 4, 4⟩ : SimpleVector Int) 1 9
      (by decide) (by decide) (by decide)⟩

/-- C9: on a well-formed vector with old size `m`, `Resize(n)` returns a vector with
`GetSize() == n` in which checked access gives the old elements at the indices below
`min(m, n)` and the value `Type()` at every index in `[m, n)`, whether the new size fits
in the capacity (stale values in those slots are overwritten) or `Resize` reallocates. -/
theorem C9_Resize_elements [Elem α] (v : SimpleVector α) (n : Nat) (hw : v.WellFormed) :
    ∃ w, v.Resize n = .ok w ∧ w.GetSize = n ∧
      (∀ j, j < min v.GetSize n → ∃ x, v.At j = .ok x ∧ w.At j = .ok x) ∧
      (∀ j, v.GetSize ≤ j → j < n → w.At j = .ok Elem.dflt) ∧
      w.live = v.live.take (min v.GetSize n) ++ List.replicate (n - v.GetSize) Elem.dflt := by
  obtain ⟨w, hr, hsz, _, hlive, _⟩ := Resize_ok v n hw
  obtain ⟨h1, h2⟩ := hw
  simp only [allocated] at h1 h2
  have hvl : v.live.length = v.size_ := by
    simp only [live, List.length_take]
    omega
  have hlive2 : ∀ j, w.live[j]? =
      if j < min v.size_ n then v.live[j]? else
        if j < n then some Elem.dflt else none := by
    intro j
    rw [hlive, List.getElem?_append, List.length_take, hvl, List.getElem?_take,
      List.getElem?_replicate]
    by_cases ha : j < min n v.size_
    · have hb : j < n := by omega
      have hc : j < min v.size_ n := by omega
      simp [ha, hb, hc]
    · have hc : ¬ j < min v.size_ n := by omega
      by_cases hb : j < n
      · have hd : j - min n v.size_ < n - v.size_ := by omega
        simp [ha, hb, hc, hd]
      · have hd : ¬ j - min n v.size_ < n - v.size_ := by omega
        simp [ha, hb, hc, hd]
  refine ⟨w, hr, hsz, ?_, ?_, ?_⟩
  · intro j hj
    simp only [GetSize] at hj
    have hjl : j < v.live.length := by omega
    refine ⟨v.live[j], At_of_live v j _ (List.getElem?_eq_getElem hjl), At_of_live w j _ ?_⟩
    rw [hlive2 j, if_pos hj]
    exact List.getElem?_eq_getElem hjl
  · intro j hj1 hj2
    simp only [GetSize] at hj1
    apply At_of_live
    have hc : ¬ j < min v.size_ n := by omega
    rw [hlive2 j, if_neg hc, if_pos hj2]
  · rw [hlive]
    simp only [GetSize]
    congr 1
    apply List.ext_getElem?
    intro j
    rw [List.getElem?_take, List.getElem?_take]
    by_cases ha : j < n
    · by_cases hb : j < v.size_
      · have hc : j < min v.size_ n := by omega
        simp [ha, hc]
      · have hc : ¬ j < min v.size_ n := by omega
        simp only [ha, hc, if_true, if_false]
        exact List.getElem?_eq_none (by omega)
    · have hc : ¬ j < min v.size_ n := by omega
      simp [ha, hc]

/-- The vector `{1, 2}` with capacity 3 and the stale value 3 in its free slot, as
`PopBack` leaves `{1, 2, 3}`, resized to 3. -/
theorem C9_Resize_elements_witness :
    (⟨some [1, 2, 3], 2, 3⟩ : SimpleVector Int).WellFormed ∧
    ∃ w, (⟨some [1, 2, 3], 2, 3⟩ : SimpleVector Int).Resize 3 = .ok w ∧ w.GetSize = 3 ∧
      (∀ j, j < min (⟨some [1, 2, 3], 2, 3⟩ : SimpleVector Int).GetSize 3 →
        ∃ x, (⟨some [1, 2, 3], 2, 3⟩ : SimpleVector Int).At j = .ok x ∧ w.At j = .ok x) ∧
      (∀ j, (⟨some [1, 2, 3], 2, 3⟩ : SimpleVector Int).GetSize ≤ j → j < 3 →
        w.At j = .ok Elem.dflt) ∧
      w.live = (⟨some [1, 2, 3], 2, 3⟩ : SimpleVector Int).live.take
          (min (⟨some [1, 2, 3], 2, 3⟩ : SimpleVector Int).GetSize 3)
        ++ List.replicate (3 - (⟨some [1, 2, 3], 2, 3⟩ : SimpleVector Int).GetSize) Elem.dflt :=
  ⟨by decide, C9_Resize_elements (⟨some [1, 2, 3], 2, 3⟩ : SimpleVector Int) 3 (by decide)⟩

/-- C10: `Resize(n)` returns on every well-formed vector, and whenever it returns, on a
vector with capacity `c`, `GetCapacity()` is `c` if `n <= c` and `max(2 * c, n)` if
`n > c`; in both cases it is at least `c`. -/
theorem C10_Resize_capacity [Elem α] (v : SimpleVector α) (n : Nat) :
    (v.WellFormed → ∃ w, v.Resize n = .ok w) ∧
      ∀ w, v.Resize n = .ok w →
        (n ≤ v.GetCapacity → w.GetCapacity = v.GetCapacity) ∧
        (n > v.GetCapacity → w.GetCapacity = max (2 * v.GetCapacity) n) ∧
        v.GetCapacity ≤ w.GetCapacity := by
  refine ⟨fun hw => ?_, fun w hr => ?_⟩
  · obtain ⟨w, hr, _⟩ := Resize_ok v n hw
    exact ⟨w, hr⟩
  · have hcap := Resize_capacity v w n hr
    simp only [GetCapacity]
    refine ⟨fun h => ?_, fun h => ?_, ?_⟩
    · rw [hcap, if_pos h]
    · have hn : ¬ n ≤ v.capacity_ := by omega
      rw [hcap, if_neg hn, Nat.mul_comm]
    · rw [hcap]
      split
      · exact le_refl _
      · exact le_trans (by omega) (le_max_left _ _)

/-- The vector `{1, 2, 3}` with capacity 3, resized to 4 (capacity 6) and to 2
(capacity 3). -/
theorem C10_Resize_capacity_witness :
    (⟨some [1, 2, 3], 3, 3⟩ : SimpleVector Int).WellFormed ∧
    (∃ w, (⟨some [1, 2, 3], 3, 3⟩ : SimpleVector Int).Resize 4 = .ok w) ∧
    (⟨some [1, 2, 3], 3, 3⟩ : SimpleVector Int).Resize 4 = .ok ⟨some [1, 2, 3, 0, 0, 0], 4, 6⟩ ∧
    4 > (⟨some [1, 2, 3], 3, 3⟩ : SimpleVector Int).GetCapacity ∧
    (⟨some [1, 2, 3, 0, 0, 0], 4, 6⟩ : SimpleVector Int).GetCapacity
      = max (2 * (⟨some [1, 2, 3], 3, 3⟩ : SimpleVector Int).GetCapacity) 4 :=
  ⟨by decide,
    (C10_Resize_capacity (⟨some [1, 2, 3], 3, 3⟩ : SimpleVector Int) 4).1 (by decide),
    rfl, by decide,
    ((C10_Resize_capacity (⟨some [1, 2, 3], 3, 3⟩ : SimpleVector Int) 4).2
      ⟨some [1, 2, 3, 0, 0, 0], 4, 6⟩ rfl).2.1 (by decide)⟩

/-- C11: `GetCapacity()` of a copy is the capacity of the source, not the number of its
live elements.  The copy of a vector with one element and capacity 2 (made by
`Reserve(2)` and one `PushBack`) has the source's size and live elements and a block of
one slot, as many as the source has live elements, but the constructor sets
`capacity_ = other.capacity_`, so `GetCapacity()` returns 2; the next `PushBack` on the
copy, with either overload, takes the in-place branch and writes into slot 1, outside
that block. -/
theorem C11_copy_keeps_source_capacity [Elem α] (x y : α) :
    ∃ a b : SimpleVector α,
      (do let v ← ofReserve 2; v.PushBack x) = .ok a ∧
      a.GetSize = 1 ∧ a.GetCapacity = 2 ∧ a.live = [x] ∧
      copy a = .ok b ∧ b.GetSize = a.GetSize ∧ b.live = a.live ∧
      b.allocated = a.GetSize ∧
      b.GetCapacity = a.GetCapacity ∧ b.GetCapacity ≠ a.GetSize ∧
      b.PushBack y = .error .undefined ∧ b.PushBackMove y = .error .undefined := by
  refine ⟨⟨some [x, Elem.indet], 1, 2⟩, ⟨some [x], 1, 2⟩, ?_, rfl, rfl, rfl, ?_, rfl, rfl, rfl,
    rfl, by simp [GetCapacity, GetSize], ?_, ?_⟩
  · simp [ofReserve, Reserve, copy_loop, PushBack, store, new_array, bind, Except.bind, pure,
      Except.pure]
  · simp [copy, begin_ptr, std_copy, new_array, slots, overwrite, slice, bind, Except.bind,
      pure, Except.pure]
  · simp [PushBack, store]
  · simp [PushBackMove, store]

/-- C12: copy-assignment from a different vector whose live indices address allocated
slots returns; afterwards the receiver has the source's size and the source's live
elements in order, `==` with the source is true and `!=` is false; when the source is
empty the receiver has size 0 and `IsEmpty()` is true, whatever it held before.  The
assignment has the new receiver as its only result, so the source is as before. -/
theorem C12_copy_assignment [BEq α] [LawfulBEq α] [Elem α] (self other : SimpleVector α)
    (h : other.Live) :
    ∃ w, assign self other true = .ok w ∧ w.GetSize = other.GetSize ∧ w.live = other.live ∧
      operator_eq w other = .ok true ∧ operator_ne w other = .ok false ∧
      (other.IsEmpty = true → w.GetSize = 0 ∧ w.IsEmpty = true) := by
  have key : ∃ w, assign self other true = .ok w ∧ w.size_ = other.size_ ∧
      w.live = other.live ∧ w.Live := by
    by_cases h0 : other.size_ = 0
    · refine ⟨⟨none, 0, self.capacity_⟩, ?_, h0.symm, ?_, ?_⟩
      · simp [assign, SimpleVector.IsEmpty, h0, pure, Except.pure]
      · rw [live_eq_nil other h0]
        rfl
      · simp [Live, allocated, slots_none]
    · obtain ⟨t, ht, hs, hc, hi⟩ := copy_ok other h
      refine ⟨⟨t.items_, t.size_, t.capacity_⟩, ?_, hs, ?_, ?_⟩
      · simp [assign, SimpleVector.IsEmpty, h0, ht, swap, bind, Except.bind, pure, Except.pure]
      · show List.take t.size_ (slots t.items_) = other.live
        rw [hi, slots_some, hs]
        exact List.take_of_length_le (le_of_eq (length_live other h))
      · simp only [Live, allocated, hi, slots_some, hs, length_live other h]
        exact le_refl _
  obtain ⟨w, hw, hs, hl, hwl⟩ := key
  have heq : operator_eq w other = .ok true := by
    rw [operator_eq_ok w other hwl h, hl]
    simp
  refine ⟨w, hw, hs, hl, heq, ?_, fun he => ?_⟩
  · simp [operator_ne, heq, bind, Except.bind, pure, Except.pure]
  · have h0 : other.size_ = 0 := by
      by_contra hc
      simp [SimpleVector.IsEmpty, hc] at he
    have hw0 : w.size_ = 0 := by rw [hs, h0]
    exact ⟨hw0, by simp [SimpleVector.IsEmpty, hw0]⟩

/-- The receiver `{1, 2, 3}` assigned from the empty vector and from `{7, 8}`. -/
theorem C12_copy_assignment_witness :
    ({} : SimpleVector Int).Live ∧
    (∃ w, assign (⟨some [1, 2, 3], 3, 3⟩ : SimpleVector Int) {} true = .ok w ∧
      w.GetSize = ({} : SimpleVector Int).GetSize ∧ w.live = ({} : SimpleVector Int).live ∧
      operator_eq w {} = .ok true ∧ operator_ne w {} = .ok false ∧
      (({} : SimpleVector Int).IsEmpty = true → w.GetSize = 0 ∧ w.IsEmpty = true)) ∧
    assign (⟨some [1, 2, 3], 3, 3⟩ : SimpleVector Int) ⟨some [7, 8], 2, 2⟩ true
      = .ok ⟨some [7, 8], 2, 2⟩ :=
  ⟨by decide, C12_copy_assignment (⟨some [1, 2, 3], 3, 3⟩ : SimpleVector Int) {} (by decide),
    rfl⟩

/-- C13: move-constructing from `A` leaves `A` with size 0, capacity 0 and no storage, and
gives the new vector the size, the capacity, the storage and the live elements `A` had. -/
theorem C13_move_constructor (A : SimpleVector α) :
    (move A).2.GetSize = 0 ∧ (move A).2.GetCapacity = 0 ∧ (move A).2.items_ = none ∧
      (move A).1.GetSize = A.GetSize ∧ (move A).1.GetCapacity = A.GetCapacity ∧
      (move A).1.items_ = A.items_ ∧ (move A).1.live = A.live :=
  ⟨rfl, rfl, rfl, rfl, rfl, rfl, rfl⟩

/-- C14: for two vectors whose live indices address allocated slots, `a == b` returns
true exactly when they have the same size and the same live elements in order (the
capacity and the slots beyond the size do not enter), and `a != b` returns the negation.
Two vectors built from the same list are equal, and after one `PushBack` (either
overload) on one of them they are unequal, in either order of the operands. -/
theorem C14_equality [BEq α] [LawfulBEq α] [Elem α] (a b : SimpleVector α)
    (ha : a.Live) (hb : b.Live) :
    (operator_eq a b = .ok true ↔ a.GetSize = b.GetSize ∧ a.live = b.live) ∧
    (∃ r, operator_eq a b = .ok r ∧ operator_ne a b = .ok (!r)) ∧
    (∀ (init : List α) (x : α) (mv : Bool), ∃ u u',
      ofList init = .ok u ∧ operator_eq u u = .ok true ∧ operator_ne u u = .ok false ∧
      (if mv then u.PushBackMove x else u.PushBack x) = .ok u' ∧
      operator_eq u' u = .ok false ∧ operator_eq u u' = .ok false ∧
      operator_ne u' u = .ok true ∧ operator_ne u u' = .ok true) := by
  have heq := operator_eq_ok a b ha hb
  refine ⟨?_, ⟨_, heq, by simp [operator_ne, heq, bind, Except.bind, pure, Except.pure]⟩, ?_⟩
  · rw [heq]
    simp only [Except.ok.injEq, beq_iff_eq, GetSize]
    constructor
    · intro hl
      exact ⟨by rw [← length_live a ha, ← length_live b hb, hl], hl⟩
    · exact fun h => h.2
  · intro init x mv
    obtain ⟨u', hu', hs⟩ := PushBack_after_ofList init x mv
    have hul : (⟨some init, init.length, init.length⟩ : SimpleVector α).Live := by
      simp [Live, allocated, slots_some]
    have h1 : operator_eq (⟨some init, init.length, init.length⟩ : SimpleVector α)
        ⟨some init, init.length, init.length⟩ = .ok true := by
      rw [operator_eq_ok _ _ hul hul]
      simp
    have h2 : operator_eq u' (⟨some init, init.length, init.length⟩ : SimpleVector α)
        = .ok false := by
      have hne : u'.GetSize ≠ (⟨some init, init.length, init.length⟩ : SimpleVector α).GetSize := by
        simp only [GetSize, hs]
        omega
      rw [operator_eq, if_pos hne]
    have h3 : operator_eq (⟨some init, init.length, init.length⟩ : SimpleVector α) u'
        = .ok false := by
      have hne : (⟨some init, init.length, init.length⟩ : SimpleVector α).GetSize ≠ u'.GetSize := by
        simp only [GetSize, hs]
        omega
      rw [operator_eq, if_pos hne]
    refine ⟨_, u', ofList_ok init, h1, ?_, hu', h2, h3, ?_, ?_⟩
    · simp [operator_ne, h1, bind, Except.bind, pure, Except.pure]
    · simp [operator_ne, h2, bind, Except.bind, pure, Except.pure]
    · simp [operator_ne, h3, bind, Except.bind, pure, Except.pure]

/-- The vectors `{1, 2}` with capacity 2 and `{1, 2}` with capacity 4 and a stale third
slot are equal. -/
theorem C14_equality_witness :
    (⟨some [1, 2], 2, 2⟩ : SimpleVector Int).Live ∧
    (⟨some [1, 2, 9, 9], 2, 4⟩ : SimpleVector Int).Live ∧
    (operator_eq (⟨some [1, 2], 2, 2⟩ : SimpleVector Int) ⟨some [1, 2, 9, 9], 2, 4⟩ = .ok true ↔
      (⟨some [1, 2], 2, 2⟩ : SimpleVector Int).GetSize
          = (⟨some [1, 2, 9, 9], 2, 4⟩ : SimpleVector Int).GetSize ∧
        (⟨some [1, 2], 2, 2⟩ : SimpleVector Int).live
          = (⟨some [1, 2, 9, 9], 2, 4⟩ : SimpleVector Int).live) ∧
    operator_eq (⟨some [1, 2], 2, 2⟩ : SimpleVector Int) ⟨some [1, 2, 9, 9], 2, 4⟩ = .ok true :=
  ⟨by decide, by decide,
    (C14_equality (⟨some [1, 2], 2, 2⟩ : SimpleVector Int) ⟨some [1, 2, 9, 9], 2, 4⟩
      (by decide) (by decide)).1,
    rfl⟩

/-- C15: for two vectors over a linearly ordered element type whose live indices address
allocated slots, `a < b` returns, and it returns true exactly when the live sequence of
`b` is that of `a` followed by at least one more element, or the two sequences agree
below some index `k` at which the element of `a` is less than that of `b`.  So the empty
vector is less than every non-empty one and no vector is less than the empty one. -/
theorem C15_less_than [LinearOrder α] (a b : SimpleVector α) (ha : a.Live) (hb : b.Live) :
    (∃ r, operator_lt a b = .ok r) ∧
    (operator_lt a b = .ok true ↔
      (∃ t, t ≠ [] ∧ b.live = a.live ++ t) ∨
      (∃ k x y, a.live[k]? = some x ∧ b.live[k]? = some y ∧
        a.live.take k = b.live.take k ∧ x < y)) ∧
    (a.GetSize = 0 → b.GetSize ≠ 0 → operator_lt a b = .ok true) ∧
    (b.GetSize = 0 → operator_lt a b = .ok false) := by
  have hlt := operator_lt_ok a b ha hb
  refine ⟨⟨_, hlt⟩, ?_, fun h1 h2 => ?_, fun h1 => ?_⟩
  · rw [hlt, Except.ok.injEq]
    exact lex_less_iff a.live b.live
  · rw [hlt, live_eq_nil a h1, lex_less_nil_left _ (live_ne_nil b hb h2)]
  · rw [hlt, live_eq_nil b h1, lex_less_nil_right]

/-- The vectors `{1, 2}`, `{1, 2, 3}` and `{1, 3}`: `{1, 2} < {1, 2, 3} < {1, 3}`. -/
theorem C15_less_than_witness :
    (⟨some [1, 2], 2, 2⟩ : SimpleVector Int).Live ∧
    (⟨some [1, 2, 3], 3, 3⟩ : SimpleVector Int).Live ∧
    (∃ r, operator_lt (⟨some [1, 2], 2, 2⟩ : SimpleVector Int) ⟨some [1, 2, 3], 3, 3⟩ = .ok r) ∧
    operator_lt (⟨some [1, 2], 2, 2⟩ : SimpleVector Int) ⟨some [1, 2, 3], 3, 3⟩ = .ok true ∧
    operator_lt (⟨some [1, 2, 3], 3, 3⟩ : SimpleVector Int) ⟨some [1, 3], 2, 2⟩ = .ok true ∧
    operator_lt (⟨some [1, 3], 2, 2⟩ : SimpleVector Int) ⟨some [1, 2, 3], 3, 3⟩ = .ok false :=
  ⟨by decide, by decide,
    (C15_less_than (⟨some [1, 2], 2, 2⟩ : SimpleVector Int) ⟨some [1, 2, 3], 3, 3⟩
      (by decide) (by decide)).1,
    rfl, rfl, rfl⟩

/-- C16: on a vector with capacity `c` whose size is at most `c` and whose live indices
address allocated slots, `Reserve(r)` returns a vector with the same size and the same
live elements; and whenever `Reserve(r)` returns, on any vector, `GetCapacity()` is
`max(c, r)` (so `c` itself when `r <= c`, `r` otherwise, never less than `c`) and
`GetSize()` is unchanged. -/
theorem C16_Reserve [Elem α] (v : SimpleVector α) (r : Nat) :
    (v.Live → v.GetSize ≤ v.GetCapacity →
      ∃ w, v.Reserve r = .ok w ∧ w.GetSize = v.GetSize ∧ w.live = v.live ∧
        w.GetCapacity = max v.GetCapacity r) ∧
    (∀ w, v.Reserve r = .ok w →
      w.GetCapacity = max v.GetCapacity r ∧ w.GetSize = v.GetSize ∧
      (r ≤ v.GetCapacity → w = v) ∧ v.GetCapacity ≤ w.GetCapacity) := by
  refine ⟨fun hl hs => ?_, fun w hw => ?_⟩
  · simp only [GetSize, GetCapacity] at hs ⊢
    by_cases hr : v.capacity_ < r
    · obtain ⟨w, hw, h1, h2, _, h4⟩ := Reserve_grow v r hl (by omega) hr
      exact ⟨w, hw, h1, h4, by rw [h2]; omega⟩
    · have hn : ¬ r > v.capacity_ := by omega
      refine ⟨v, by simp only [Reserve, hn, if_false, pure, Except.pure], rfl, rfl, by omega⟩
  · obtain ⟨h1, h2⟩ := Reserve_capacity v w r hw
    simp only [GetSize, GetCapacity]
    refine ⟨h1, h2, fun hle => ?_, by omega⟩
    have hn : ¬ r > v.capacity_ := by omega
    simp only [Reserve, hn, if_false, pure, Except.pure, Except.ok.injEq] at hw
    exact hw.symm

/-- The vector `{1, 2, 3}` with capacity 3 and `Reserve(5)`. -/
theorem C16_Reserve_witness :
    (⟨some [1, 2, 3], 3, 3⟩ : SimpleVector Int).Live ∧
    (⟨some [1, 2, 3], 3, 3⟩ : SimpleVector Int).GetSize
      ≤ (⟨some [1, 2, 3], 3, 3⟩ : SimpleVector Int).GetCapacity ∧
    ∃ w, (⟨some [1, 2, 3], 3, 3⟩ : SimpleVector Int).Reserve 5 = .ok w ∧
      w.GetSize = (⟨some [1, 2, 3], 3, 3⟩ : SimpleVector Int).GetSize ∧
      w.live = (⟨some [1, 2, 3], 3, 3⟩ : SimpleVector Int).live ∧
      w.GetCapacity = max (⟨some [1, 2, 3], 3, 3⟩ : SimpleVector Int).GetCapacity 5 :=
  ⟨by decide, by decide,
    (C16_Reserve (⟨some [1, 2, 3], 3, 3⟩ : SimpleVector Int) 5).1 (by decide) (by decide)⟩

/-- C17: for every `n` and `v`, `SimpleVector(n, v)` returns a vector with size and
capacity `n` whose live elements are `n` copies of `v`; `SimpleVector(n)` returns one
with size and capacity `n` whose live elements are `n` copies of `Type()`; and the
constructor from a list returns one whose size and capacity are the length of the list
and whose live elements are the list. -/
theorem C17_sized_and_list_constructors [Elem α] (n : Nat) (v : α) (init : List α) :
    (∃ w, ofSizeValue n v = .ok w ∧ w.GetSize = n ∧ w.GetCapacity = n ∧
      w.live = List.replicate n v) ∧
    (∃ w : SimpleVector α, ofSize n = .ok w ∧ w.GetSize = n ∧ w.GetCapacity = n ∧
      w.live = List.replicate n Elem.dflt) ∧
    (∃ w, ofList init = .ok w ∧ w.GetSize = init.length ∧ w.GetCapacity = init.length ∧
      w.live = init) := by
  refine ⟨⟨_, ofSizeValue_ok n v, rfl, rfl, ?_⟩, ⟨_, ofSize_ok n, rfl, rfl, ?_⟩,
    ⟨_, ofList_ok init, rfl, rfl, ?_⟩⟩
  · simp [live, slots_some]
  · by_cases h0 : n = 0
    · subst h0
      simp [live]
    · simp [live, h0, slots_some]
  · simp [live, slots_some]

/-- C18: the block behind `items_` does not always have room for `GetCapacity()`
elements.  The copy of a well-formed vector with one element and capacity 2 has a block
of one slot and capacity 2, and the next `PushBack` on it writes outside the block.
Copy-assignment from an empty vector leaves a receiver built from a list of three values
with no storage and capacity 3, and the next `PushBack` on it writes through `nullptr`.
After `PushBack` on the default-constructed vector the block has one slot, which is at
least the capacity, with either overload. -/
theorem C18_storage_smaller_than_capacity [Elem α] (x y : α) :
    (∃ a b : SimpleVector α,
      (do let v ← ofReserve 2; v.PushBack x) = .ok a ∧ a.WellFormed ∧
      copy a = .ok b ∧ b.allocated = 1 ∧ b.GetCapacity = 2 ∧
      ¬ b.GetCapacity ≤ b.allocated ∧
      b.PushBack y = .error .undefined ∧ b.PushBackMove y = .error .undefined) ∧
    (∃ r w : SimpleVector α,
      ofList [x, x, x] = .ok r ∧ r.WellFormed ∧ ({} : SimpleVector α).IsEmpty = true ∧
      assign r {} true = .ok w ∧ w.items_ = none ∧ w.allocated = 0 ∧ w.GetCapacity = 3 ∧
      ¬ (w.items_ = none → w.GetCapacity = 0) ∧
      w.PushBack y = .error .undefined ∧ w.PushBackMove y = .error .undefined) ∧
    (∃ w : SimpleVector α, PushBack {} x = .ok w ∧ w.GetCapacity ≤ w.allocated) ∧
    (∃ w : SimpleVector α, PushBackMove {} x = .ok w ∧ w.GetCapacity ≤ w.allocated) := by
  refine ⟨⟨⟨some [x, Elem.indet], 1, 2⟩, ⟨some [x], 1, 2⟩, ?_, ?_, ?_, rfl, rfl, ?_, ?_, ?_⟩,
    ⟨⟨some [x, x, x], 3, 3⟩, ⟨none, 0, 3⟩, ofList_ok _, ?_, rfl, ?_, rfl, rfl, rfl, ?_, ?_,
      ?_⟩,
    ⟨⟨some [x], 1, 0⟩, ?_, ?_⟩, ⟨⟨some [x], 1, 1⟩, ?_, ?_⟩⟩
  · simp [ofReserve, Reserve, copy_loop, PushBack, store, new_array, bind, Except.bind, pure,
      Except.pure]
  · simp [WellFormed, allocated, slots_some]
  · simp [copy, begin_ptr, std_copy, new_array, slots, overwrite, slice, bind, Except.bind,
      pure, Except.pure]
  · simp [GetCapacity, allocated, slots_some]
  · simp [PushBack, store]
  · simp [PushBackMove, store]
  · simp [WellFormed, allocated, slots_some]
  · simp [assign, SimpleVector.IsEmpty, pure, Except.pure]
  · simp [GetCapacity]
  · simp [PushBack, store]
  · simp [PushBackMove, store]
  · simp [PushBack, std_copy, store, new_array, slots, overwrite, slice, bind, Except.bind,
      pure, Except.pure]
  · simp [GetCapacity, allocated, slots_some]
  · simp [PushBackMove, std_move, store, new_array, slots, overwrite, slice, map_range, bind,
      Except.bind, pure, Except.pure]
  · simp [GetCapacity, allocated, slots_some]

/-- C19: on a well-formed vector of values that moving leaves intact, with `i <= size`,
`Insert(begin() + i, Type&&)` and `Insert(begin() + i, const Type&)` both return, with
the same vector (hence the same size, capacity and live sequence) and the same position,
that of index `i`, whether the vector is at capacity or not; the live sequence is the old
one with the value inserted at index `i`.  The value is held outside the vector. -/
theorem C19_Insert_move_as_copy [Elem α] (hm : ∀ x : α, Elem.moved x = x)
    (v : SimpleVector α) (i : Nat) (value : α) (hw : v.WellFormed) (hi : i ≤ v.GetSize) :
    ∃ w, v.Insert (v.begin_ + i) (.outside value) = .ok (w, w.begin_ + i) ∧
      v.InsertMove (v.begin_ + i) value = .ok (w, w.begin_ + i) ∧
      w.GetSize = v.GetSize + 1 ∧
      w.GetCapacity = (if v.GetSize = v.GetCapacity then max 1 (2 * v.GetCapacity)
        else v.GetCapacity) ∧
      w.live = v.live.take i ++ value :: v.live.drop i := by
  have heq := InsertMove_eq_Insert hm v i value hw hi
  obtain ⟨h1, h2⟩ := hw
  obtain ⟨w, hins, hsz, hlive, _, hcap⟩ :=
    Insert_ok v i value (by omega) (fun hne => by omega) hi
  refine ⟨w, ?_, ?_, hsz, ?_, hlive⟩
  · simpa [begin_] using hins
  · have hmv : v.InsertMove (i : Int) value = .ok (w, (i : Int)) := by
      rw [heq]
      exact hins
    simpa [begin_] using hmv
  · simp only [GetSize, GetCapacity]
    rw [hcap]
    split
    · split <;> omega
    · rfl

/-- The vector `{1, 2, 3}` of `int`, at capacity 3 and with capacity 5, with 9 inserted
at index 1 by either overload. -/
theorem C19_Insert_move_as_copy_witness :
    (∀ x : Int, Elem.moved x = x) ∧
    (⟨some [1, 2, 3], 3, 3⟩ : SimpleVector Int).WellFormed ∧
    1 ≤ (⟨some [1, 2, 3], 3, 3⟩ : SimpleVector Int).GetSize ∧
    (∃ w, (⟨some [1, 2, 3], 3, 3⟩ : SimpleVector Int).Insert
        ((⟨some [1, 2, 3], 3, 3⟩ : SimpleVector Int).begin_ + (1 : Nat)) (.outside 9)
          = .ok (w, w.begin_ + (1 : Nat)) ∧
      (⟨some [1, 2, 3], 3, 3⟩ : SimpleVector Int).InsertMove
        ((⟨some [1, 2, 3], 3, 3⟩ : SimpleVector Int).begin_ + (1 : Nat)) 9
          = .ok (w, w.begin_ + (1 : Nat)) ∧
      w.GetSize = 3 + 1 ∧
      w.GetCapacity = (if (⟨some [1, 2, 3], 3, 3⟩ : SimpleVector Int).GetSize
          = (⟨some [1, 2, 3], 3, 3⟩ : SimpleVector Int).GetCapacity
        then max 1 (2 * (⟨some [1, 2, 3], 3, 3⟩ : SimpleVector Int).GetCapacity)
        else (⟨some [1, 2, 3], 3, 3⟩ : SimpleVector Int).GetCapacity) ∧
      w.live = ([1, 2, 3] : List Int).take 1 ++ 9 :: ([1, 2, 3] : List Int).drop 1) ∧
    (⟨some [1, 2, 3, 0, 0], 3, 5⟩ : SimpleVector Int).InsertMove 1 9
      = .ok (⟨some [1, 9, 2, 3, 0], 4, 5⟩, 1) :=
  ⟨fun _ => rfl, by decide, by decide,
    C19_Insert_move_as_copy (fun _ => rfl) (⟨some [1, 2, 3], 3, 3⟩ : SimpleVector Int) 1 9
      (by decide) (by decide),
    rfl⟩

/-- C20: the condition `begin() <= pos || pos <= end()` asserted by `Insert` (both
overloads) and `Erase` is true for every vector and every position, in particular one
before `begin()`, one past `end()`, and `end()` itself; so none of the three functions
ever ends in a failed assertion, whatever the position and whatever the argument of the
copying `Insert` refers to. -/
theorem C20_position_assert_never_fails [Elem α] (v : SimpleVector α) (pos : Int)
    (r : Ref α) (x : α) :
    v.pos_check pos = true ∧
      v.pos_check (v.begin_ - 1) = true ∧ v.pos_check (v.end_ + 1) = true ∧
      v.pos_check v.end_ = true ∧
      v.Insert pos r ≠ .error .assertion ∧ v.InsertMove pos x ≠ .error .assertion ∧
      v.Erase pos ≠ .error .assertion := by
  refine ⟨pos_check_true v pos, pos_check_true v _, pos_check_true v _, pos_check_true v _,
    fun h => ?_, fun h => ?_, fun h => ?_⟩
  · exact Fault.noConfusion (Insert_fault v pos r _ h)
  · exact Fault.noConfusion (InsertMove_fault v pos x _ h)
  · exact Fault.noConfusion (Erase_fault v pos _ h)

end SimpleVectorSpec
